import Mathlib

/-!
Verification of the cairn goal-tracker core (stefanpenner/cairn).

Text is modelled as `List Char` (one entry per rune) and Go string helpers
(`strings.HasPrefix`, `strings.Index`, `strings.Contains`, `strings.TrimSpace`,
`strings.TrimLeft`, `strings.TrimRight`) are embedded below as `startsWith`,
`findSub`, `containsSub`, `trimSpace`, `trimLeftNl`, `trimRightNl`.
Slug/directory-name level operations that only compare whole names use `String`.
-/

/-! ## Generic text helpers (shallow embedding of Go strings functions) -/

/-- Whitespace characters trimmed by Go strings.TrimSpace, restricted to the ASCII
whitespace that the cairn file formats ever produce. -/
def isWSChar (c : Char) : Bool := c == ' ' || c == '\t' || c == '\n' || c == '\r'

/-- Embedding of the left half of strings.TrimSpace. -/
def trimLeftWS (s : List Char) : List Char := s.dropWhile isWSChar

/-- Embedding of the right half of strings.TrimSpace. -/
def trimRightWS (s : List Char) : List Char := (s.reverse.dropWhile isWSChar).reverse

/-- Embedding of Go strings.TrimSpace. -/
def trimSpace (s : List Char) : List Char := trimLeftWS (trimRightWS s)

/-- Embedding of strings.TrimLeft(s, "\n"). -/
def trimLeftNl (s : List Char) : List Char := s.dropWhile (fun c => c == '\n')

/-- Embedding of strings.TrimRight(s, "\n"). -/
def trimRightNl (s : List Char) : List Char := (s.reverse.dropWhile (fun c => c == '\n')).reverse

/-- Embedding of Go strings.HasPrefix: `startsWith pat s` is true when `s` begins with `pat`. -/
def startsWith : List Char → List Char → Bool
  | [], _ => true
  | _ :: _, [] => false
  | p :: ps, c :: cs => p == c && startsWith ps cs

/-- Embedding of Go strings.Index: index of the first occurrence of `pat` in `s`,
or `none` when `pat` does not occur (Go returns -1). -/
def findSub (pat : List Char) : List Char → Option Nat
  | [] => if startsWith pat [] then some 0 else none
  | c :: cs => if startsWith pat (c :: cs) then some 0 else (findSub pat cs).map (· + 1)

/-- Embedding of Go strings.Contains. -/
def containsSub (pat s : List Char) : Bool := (findSub pat s).isSome

/-- Number of positions of `s` at which `pat` occurs (occurrences may overlap). -/
def countSub (pat : List Char) : List Char → Nat
  | [] => 0
  | c :: cs => (if startsWith pat (c :: cs) then 1 else 0) + countSub pat cs

/-- Embedding of Go strings.ToLower (per rune). -/
def toLowerL (s : List Char) : List Char := s.map Char.toLower

/-- Embedding of Go strings.HasSuffix(s, "\n"). -/
def endsWithNl (s : List Char) : Bool :=
  match s.getLast? with
  | some c => c == '\n'
  | none => false

/-! ### Lemmas about the text helpers -/

theorem startsWith_iff (p s : List Char) : startsWith p s = true ↔ ∃ t, s = p ++ t := by
  induction p generalizing s with
  | nil => simp [startsWith]
  | cons a ps ih =>
    cases s with
    | nil => simp [startsWith]
    | cons c cs =>
      simp only [startsWith, Bool.and_eq_true, beq_iff_eq, ih, List.cons_append, List.cons.injEq]
      constructor
      · rintro ⟨rfl, t, rfl⟩; exact ⟨t, rfl, rfl⟩
      · rintro ⟨t, rfl, rfl⟩; exact ⟨rfl, t, rfl⟩

theorem startsWith_append_self (p t : List Char) : startsWith p (p ++ t) = true :=
  (startsWith_iff p (p ++ t)).mpr ⟨t, rfl⟩

theorem startsWith_length_le (p s : List Char) (h : startsWith p s = true) : p.length ≤ s.length := by
  obtain ⟨t, rfl⟩ := (startsWith_iff p s).mp h
  simp

theorem startsWith_getElem (p s : List Char) (h : startsWith p s = true) (k : Nat)
    (hk : k < p.length) : s[k]? = p[k]? := by
  obtain ⟨t, rfl⟩ := (startsWith_iff p s).mp h
  rw [List.getElem?_append, if_pos hk]

theorem startsWith_nil_false (p s : List Char) (hp : p ≠ []) (hs : s = []) :
    startsWith p s = false := by
  cases p with
  | nil => exact absurd rfl hp
  | cons a ps => simp [hs, startsWith]

theorem startsWith_of_append_left (p x w : List Char) (h : p.length ≤ x.length) :
    startsWith p (x ++ w) = startsWith p x := by
  induction p generalizing x with
  | nil => simp [startsWith]
  | cons a ps ih =>
    cases x with
    | nil => simp at h
    | cons c cs =>
      simp only [List.cons_append, startsWith, List.append_eq]
      rw [ih cs (by simpa using h)]

theorem findSub_first (p s : List Char) (i : Nat) (hi : startsWith p (s.drop i) = true)
    (hmin : ∀ j < i, startsWith p (s.drop j) = false) : findSub p s = some i := by
  induction s generalizing i with
  | nil =>
    cases i with
    | zero => simpa [findSub] using hi
    | succ n =>
      exfalso
      have h0 := hmin 0 (Nat.succ_pos n)
      simp only [List.drop_nil] at hi h0
      rw [hi] at h0; exact Bool.noConfusion h0
  | cons c cs ih =>
    cases i with
    | zero => simpa [findSub] using hi
    | succ n =>
      have h0 := hmin 0 (Nat.succ_pos n)
      simp only [List.drop_zero] at h0
      have hrec : findSub p cs = some n := by
        refine ih n (by simpa using hi) ?_
        intro j hj
        have := hmin (j + 1) (by omega)
        simpa using this
      simp [findSub, h0, hrec]

theorem findSub_none_iff (p s : List Char) :
    findSub p s = none ↔ ∀ i, startsWith p (s.drop i) = false := by
  induction s with
  | nil =>
    constructor
    · intro h i
      simp only [findSub] at h
      simp only [List.drop_nil]
      by_cases hp : startsWith p [] = true
      · rw [hp] at h; exact absurd h (by simp)
      · simpa using hp
    · intro h
      have := h 0
      simp only [List.drop_nil] at this
      simp [findSub, this]
  | cons c cs ih =>
    constructor
    · intro h i
      simp only [findSub] at h
      by_cases h0 : startsWith p (c :: cs) = true
      · rw [if_pos h0] at h; exact absurd h (by simp)
      · rw [if_neg h0] at h
        cases i with
        | zero => simpa using h0
        | succ n =>
          have : findSub p cs = none := by
            cases hcs : findSub p cs with
            | none => rfl
            | some k => rw [hcs] at h; simp [Option.map] at h
          simpa using (ih.mp this) n
    · intro h
      have h0 := h 0
      simp only [List.drop_zero] at h0
      have hcs : findSub p cs = none := ih.mpr (fun i => by simpa using h (i + 1))
      simp [findSub, h0, hcs]

theorem countSub_eq_zero_iff (p s : List Char) :
    countSub p s = 0 ↔ ∀ i, i < s.length → startsWith p (s.drop i) = false := by
  induction s with
  | nil => simp [countSub]
  | cons c cs ih =>
    simp only [countSub, Nat.add_eq_zero]
    constructor
    · rintro ⟨h0, hrest⟩ i hi
      cases i with
      | zero =>
        simp only [List.drop_zero]
        by_cases hb : startsWith p (c :: cs) = true
        · rw [if_pos hb] at h0; exact absurd h0 one_ne_zero
        · simpa using hb
      | succ n => simpa using (ih.mp hrest) n (by simpa using hi)
    · intro h
      have h0 := h 0 (by simp)
      simp only [List.drop_zero] at h0
      exact ⟨by simp [h0], ih.mpr (fun i hi => by simpa using h (i + 1) (by simpa using hi))⟩

theorem containsSub_false_iff (p s : List Char) :
    containsSub p s = false ↔ ∀ i, startsWith p (s.drop i) = false := by
  unfold containsSub
  rw [← findSub_none_iff]
  cases h : findSub p s <;> simp

theorem startsWith_across_nl (p s t : List Char) (hnl : '\n' ∉ p) :
    startsWith p (s ++ '\n' :: t) = startsWith p s := by
  induction p generalizing s with
  | nil => simp [startsWith]
  | cons a ps ih =>
    cases s with
    | nil =>
      have ha : (a == '\n') = false := by
        cases hb : a == '\n'
        · rfl
        · exfalso
          have ha2 : a = '\n' := beq_iff_eq.mp hb
          subst ha2
          exact hnl (List.mem_cons_self _ _)
      simp [startsWith, ha]
    | cons c cs =>
      simp only [List.cons_append, startsWith, List.append_eq]
      rw [ih cs (fun hm => hnl (List.mem_cons_of_mem a hm))]

theorem countSub_split_nl (p s t : List Char) (hp : p ≠ []) (hnl : '\n' ∉ p) :
    countSub p (s ++ '\n' :: t) = countSub p s + countSub p t := by
  induction s with
  | nil =>
    have h0 : startsWith p ('\n' :: t) = false := by
      cases p with
      | nil => exact absurd rfl hp
      | cons a ps =>
        have ha : (a == '\n') = false := by
          cases hb : a == '\n'
          · rfl
          · exfalso
            have ha2 : a = '\n' := beq_iff_eq.mp hb
            subst ha2
            exact hnl (List.mem_cons_self _ _)
        simp [startsWith, ha]
    simp [countSub, h0]
  | cons c cs ih =>
    simp only [List.cons_append, countSub, List.append_eq, ih]
    have hsw : startsWith p (c :: (cs ++ '\n' :: t)) = startsWith p (c :: cs) := by
      have := startsWith_across_nl p (c :: cs) t hnl
      simpa using this
    simp only [hsw]
    omega

theorem countSub_self (p : List Char) (hp : p ≠ []) : countSub p p = 1 := by
  cases p with
  | nil => exact absurd rfl hp
  | cons c cs =>
    have h0 : startsWith (c :: cs) (c :: cs) = true := by
      simpa using startsWith_append_self (c :: cs) []
    have hrest : countSub (c :: cs) cs = 0 := by
      rw [countSub_eq_zero_iff]
      intro i hi
      cases hb : startsWith (c :: cs) (cs.drop i)
      · rfl
      · exfalso
        have := startsWith_length_le _ _ hb
        simp only [List.length_drop, List.length_cons] at this
        omega
    simp [countSub, h0, hrest]

/-! ## Store: sibling order merge (getSiblingOrder / loadGoalRecursive, store.go) -/

/-- Order-merge loop from getSiblingOrder (src/pkg/store/store.go lines 489-508) and
loadGoalRecursive (lines 170-188): walk the persisted hint `order`, appending entries
that exist among the enumerated child directory names `dirNames` while marking them seen,
then append every enumerated child not seen. The pair accumulates (result, seen). -/
def mergeChildrenOrder (order dirNames : List String) : List String :=
  let pass := order.foldl
    (fun (acc : List String × List String) name =>
      cond (dirNames.contains name) (acc.1 ++ [name], acc.2 ++ [name]) acc)
    ([], [])
  pass.1 ++ dirNames.filter (fun name => !(pass.2.contains name))

/-- getSiblingOrder from store.go lines 452-512, as a pure function of the persisted
children-order hint and the enumerated child directory names (alphabetical discovery
order as returned by os.ReadDir): the merge runs only when a hint is present, else the
directory listing order is returned unchanged. -/
def getSiblingOrder (order dirNames : List String) : List String :=
  if order.length > 0 then mergeChildrenOrder order dirNames else dirNames

/-- The order-merge rule in the spec's words: the hint entries that name existing
children, in hint order, followed by every child not named in the hint, in discovery
order. -/
def orderMergeSpec (order dirNames : List String) : List String :=
  order.filter (fun n => dirNames.contains n) ++ dirNames.filter (fun n => !(order.contains n))

theorem contains_true_iff (l : List String) (a : String) : l.contains a = true ↔ a ∈ l := by
  simp [List.contains, List.elem_iff]

theorem mergeChildrenOrder_fold (dirNames order r s : List String) :
    order.foldl
      (fun (acc : List String × List String) name =>
        cond (dirNames.contains name) (acc.1 ++ [name], acc.2 ++ [name]) acc)
      (r, s)
    = (r ++ order.filter (fun n => dirNames.contains n),
       s ++ order.filter (fun n => dirNames.contains n)) := by
  induction order generalizing r s with
  | nil => simp
  | cons a t ih =>
    rw [List.foldl_cons, List.filter_cons]
    cases h : dirNames.contains a with
    | true =>
      simp only [h, cond_true]
      rw [ih]
      simp
    | false =>
      simp only [h, cond_false]
      rw [ih]
      simp

theorem getSiblingOrder_merge_eq (order dirNames : List String) :
    getSiblingOrder order dirNames = orderMergeSpec order dirNames := by
  unfold getSiblingOrder mergeChildrenOrder orderMergeSpec
  by_cases h : order.length > 0
  · rw [if_pos h]
    simp only [mergeChildrenOrder_fold dirNames order [] [], List.nil_append]
    congr 1
    refine List.filter_congr (fun n hn => ?_)
    have key : (order.filter (fun m => dirNames.contains m)).contains n = order.contains n := by
      cases hc : order.contains n
      · cases hc2 : (order.filter (fun m => dirNames.contains m)).contains n
        · rfl
        · exfalso
          have hmem := (contains_true_iff _ _).mp hc2
          have := List.mem_of_mem_filter hmem
          rw [← contains_true_iff] at this
          rw [this] at hc; exact Bool.noConfusion hc
      · have hmem := (contains_true_iff _ _).mp hc
        have : n ∈ order.filter (fun m => dirNames.contains m) :=
          List.mem_filter.mpr ⟨hmem, (contains_true_iff _ _).mpr hn⟩
        rw [← contains_true_iff] at this
        rw [this]
    rw [key]
  · rw [if_neg h]
    have : order = [] := by
      cases order with
      | nil => rfl
      | cons a t => exfalso; exact h (by simp)
    subst this
    simp

/-- C1: for every parent level, the computed sibling order equals the spec's
order-merge — the hint entries that name existing children in hint order, followed by
every child not named in the hint in discovery order — and in particular entries
a,b,c with hint [c,a] merge to [c,a,b], as do entries a,b,c with hint [c,x]. -/
theorem getSiblingOrder_eq_orderMergeSpec (order dirNames : List String) :
    getSiblingOrder order dirNames = orderMergeSpec order dirNames ∧
    getSiblingOrder ["c", "a"] ["a", "b", "c"] = ["c", "a", "b"] ∧
    getSiblingOrder ["c", "x"] ["a", "b", "c"] = ["c", "a", "b"] :=
  ⟨getSiblingOrder_merge_eq order dirNames, by decide, by decide⟩

/-! ## Store: goal record and status toggling (store.go ToggleStatus) -/

/-- Goal record as parsed from a goal.md file (src/unnamed/part_001): the frontmatter
fields plus the body. Filesystem-derived fields (slug, path, children) are not part of
the codec and are modelled where needed. -/
structure Goal where
  title : List Char
  status : List Char
  horizon : List Char
  created : List Char
  updated : List Char
  tags : List (List Char)
  links : List (List Char × List Char)
  childrenOrder : List (List Char)
  body : List Char
deriving DecidableEq

/-- Goal with every field at its zero value (Go &Goal{}). -/
def zeroGoal : Goal := ⟨[], [], [], [], [], [], [], [], []⟩

/-- GoalStatus constant StatusIncomplete. -/
def statusIncomplete : List Char := "incomplete".toList

/-- GoalStatus constant StatusInProgress. -/
def statusInProgress : List Char := "in-progress".toList

/-- GoalStatus constant StatusComplete. -/
def statusComplete : List Char := "complete".toList

/-- The status switch inside ToggleStatus (store.go lines 263-270): incomplete maps to
in-progress, in-progress to complete, and everything else (the default case) to
incomplete. -/
def toggleStatusValue (s : List Char) : List Char :=
  if s = statusIncomplete then statusInProgress
  else if s = statusInProgress then statusComplete
  else statusIncomplete

/-- ToggleStatus from store.go lines 257-276, on the loaded goal record: the returned
goal (which is then saved) carries the cycled status. -/
def ToggleStatus (g : Goal) : Goal := { g with status := toggleStatusValue g.status }

/-- C10: ToggleStatus maps incomplete to in-progress, in-progress to complete, and
every other status value (complete, empty, or unrecognized) to incomplete. -/
theorem toggleStatus_cycle (g : Goal) :
    (g.status = statusIncomplete → (ToggleStatus g).status = statusInProgress) ∧
    (g.status = statusInProgress → (ToggleStatus g).status = statusComplete) ∧
    (g.status ≠ statusIncomplete → g.status ≠ statusInProgress →
      (ToggleStatus g).status = statusIncomplete) := by
  refine ⟨fun h => ?_, fun h => ?_, fun h1 h2 => ?_⟩
  · show toggleStatusValue g.status = statusInProgress
    rw [h]; decide
  · show toggleStatusValue g.status = statusComplete
    rw [h]; decide
  · show toggleStatusValue g.status = statusIncomplete
    rw [toggleStatusValue, if_neg h1, if_neg h2]

/-- Witness for C10 at concrete statuses: complete cycles back to incomplete and
incomplete advances to in-progress. -/
theorem toggleStatus_cycle_witness :
    (ToggleStatus { zeroGoal with status := statusComplete }).status = statusIncomplete ∧
    (ToggleStatus { zeroGoal with status := statusIncomplete }).status = statusInProgress := by
  constructor
  · exact (toggleStatus_cycle { zeroGoal with status := statusComplete }).2.2
      (by decide) (by decide)
  · exact (toggleStatus_cycle { zeroGoal with status := statusIncomplete }).1 rfl

/-! ## Store: children-order bookkeeping after MoveGoal (store.go) -/

/-- removeFromChildrenOrder from store.go lines 549-561, as a pure function: the order
re-read through getSiblingOrder (against the post-move directory listing) with the slug
filtered out; this is what saveChildrenOrder persists. -/
def removeFromChildrenOrder (order dirNames : List String) (slug : String) : List String :=
  (getSiblingOrder order dirNames).filter (fun name => !(name == slug))

/-- addToChildrenOrder from store.go lines 564-577, as a pure function of the new
parent's persisted hint and its directory listing (which, at the call site inside
MoveGoal, already contains the moved slug because os.Rename has completed): returns
the order that saveChildrenOrder would persist, or none when the early return
"only add if not already present" fires and nothing is saved. -/
def addToChildrenOrder (order dirNames : List String) (slug : String) : Option (List String) :=
  let cur := getSiblingOrder order dirNames
  if cur.contains slug then none else some (cur ++ [slug])

/-- C5 (code bug): after MoveGoal's rename the moved slug is always among the new
parent's directory names, so the merged order already contains it and
addToChildrenOrder early-returns without persisting anything; at the failing input
(empty hint, new parent containing child b, moved slug a) no hint is written and the
resulting sibling order is [a, b] — the moved goal is first, not last as the claim
requires. -/
theorem addToChildrenOrder_noop_after_move :
    addToChildrenOrder [] ["a", "b"] "a" = none ∧
    getSiblingOrder [] ["a", "b"] = ["a", "b"] ∧
    (∀ order dirNames slug, slug ∈ dirNames →
      addToChildrenOrder order dirNames slug = none) := by
  refine ⟨by decide, by decide, fun order dirNames slug hmem => ?_⟩
  have hin : slug ∈ getSiblingOrder order dirNames := by
    rw [getSiblingOrder_merge_eq]
    unfold orderMergeSpec
    by_cases ho : slug ∈ order
    · exact List.mem_append_left _
        (List.mem_filter.mpr ⟨ho, (contains_true_iff _ _).mpr hmem⟩)
    · refine List.mem_append_right _ (List.mem_filter.mpr ⟨hmem, ?_⟩)
      cases hc : order.contains slug
      · rfl
      · exact absurd ((contains_true_iff _ _).mp hc) ho
  unfold addToChildrenOrder
  rw [if_pos ((contains_true_iff _ _).mpr hin)]

/-- Witness for C5's general conjunct at a concrete input. -/
theorem addToChildrenOrder_noop_witness :
    addToChildrenOrder ["b"] ["a", "b"] "a" = none :=
  (addToChildrenOrder_noop_after_move).2.2 ["b"] ["a", "b"] "a" (by decide)

/-! ## File watcher teardown (src/unnamed/part_003 StartWatcher) -/

/-- State of the watcher machinery from StartWatcher: whether a debounce timer armed by
time.AfterFunc is still pending, whether the done channel has been closed, whether the
fsnotify watcher has been closed, and how many FileChangedMsg notifications
program.Send has delivered. -/
structure WatcherState where
  timerPending : Bool
  doneClosed : Bool
  watcherClosed : Bool
  sentCount : Nat
deriving DecidableEq

/-- Initial watcher state right after StartWatcher returns. -/
def initWatcher : WatcherState := ⟨false, false, false, 0⟩

/-- Handling of a relevant (.md) filesystem event by the watcher goroutine (lines
46-62): stop any pending debounce timer and arm a fresh one via time.AfterFunc. The
goroutine only runs before cleanup closes the done channel / event stream. -/
def watcherEvent (s : WatcherState) : WatcherState :=
  if s.doneClosed || s.watcherClosed then s else { s with timerPending := true }

/-- The cleanup closure returned by StartWatcher (lines 80-84): close(done) and
watcher.Close(). The goroutine-local debounceTimer is not referenced and not
stopped. -/
def watcherCleanup (s : WatcherState) : WatcherState :=
  { s with doneClosed := true, watcherClosed := true }

/-- Firing of a pending time.AfterFunc debounce timer: the callback runs on its own
goroutine and calls program.Send(FileChangedMsg) unconditionally. -/
def watcherTimerFire (s : WatcherState) : WatcherState :=
  if s.timerPending then { s with timerPending := false, sentCount := s.sentCount + 1 } else s

/-- C6 (code bug): a debounce timer armed by an event shortly before cleanup is still
pending after cleanup returns (cleanup only closes the done channel and the fsnotify
watcher), and when it fires it delivers a FileChangedMsg after cleanup — the pending
timer is not cancelled. -/
theorem watcher_timer_fires_after_cleanup :
    (watcherCleanup (watcherEvent initWatcher)).timerPending = true ∧
    (watcherCleanup (watcherEvent initWatcher)).sentCount = 0 ∧
    (watcherTimerFire (watcherCleanup (watcherEvent initWatcher))).sentCount = 1 := by
  decide

/-! ## Store: MoveGoal path guard and relocation (store.go MoveGoal) -/

/-- Segments of a slash-separated goal path. -/
def splitPath (p : List Char) : List (List Char) := p.splitOn '/'

/-- Embedding of filepath.Base on goal paths. -/
def pathBase (p : List Char) : List Char :=
  match (splitPath p).getLast? with
  | some s => s
  | none => p

/-- Error taxonomy of MoveGoal. -/
inductive MoveErr where
  | invalidOperation
  | conflict
  | notFound
deriving DecidableEq

/-- MoveGoal from store.go lines 398-448, over the set of existing goal directory
paths (children-order bookkeeping is modelled separately by addToChildrenOrder /
removeFromChildrenOrder): reject a destination equal to the source or inside it
(path-prefix containment), then check destination conflict, destination-parent
existence, and perform the rename by rebasing every path under the source. -/
def MoveGoal (dirs : List (List Char)) (goalPath newParentPath : List Char) :
    Except MoveErr (List (List Char)) :=
  let slug := pathBase goalPath
  if (newParentPath == goalPath) || startsWith (goalPath ++ ['/']) newParentPath then
    .error .invalidOperation
  else
    let newGoalPath := if newParentPath = [] then slug else newParentPath ++ '/' :: slug
    if dirs.contains newGoalPath then .error .conflict
    else if newParentPath ≠ [] && !(dirs.contains newParentPath) then .error .notFound
    else if !(dirs.contains goalPath) then .error .notFound
    else .ok (dirs.map (fun d =>
      if d == goalPath then newGoalPath
      else if startsWith (goalPath ++ ['/']) d then newGoalPath ++ d.drop goalPath.length
      else d))

/-- C8: MoveGoal fails with InvalidOperation — before touching any state — whenever the
destination parent equals the source path or is a descendant of it, and in particular
move(parent, parent/child) and move(parent/child, parent/child) are rejected for every
directory set. -/
theorem moveGoal_rejects_self_and_descendant :
    (∀ dirs goalPath newParentPath,
      (newParentPath = goalPath ∨ startsWith (goalPath ++ ['/']) newParentPath = true) →
      MoveGoal dirs goalPath newParentPath = .error .invalidOperation) ∧
    (∀ dirs, MoveGoal dirs "parent".toList "parent/child".toList = .error .invalidOperation) ∧
    (∀ dirs, MoveGoal dirs "parent/child".toList "parent/child".toList =
      .error .invalidOperation) := by
  have main : ∀ dirs goalPath newParentPath,
      (newParentPath = goalPath ∨ startsWith (goalPath ++ ['/']) newParentPath = true) →
      MoveGoal dirs goalPath newParentPath = .error .invalidOperation := by
    intro dirs goalPath newParentPath h
    unfold MoveGoal
    have hcond : ((newParentPath == goalPath) ||
        startsWith (goalPath ++ ['/']) newParentPath) = true := by
      rcases h with h | h
      · simp [h]
      · simp [h]
    rw [if_pos hcond]
  refine ⟨main, fun dirs => ?_, fun dirs => ?_⟩
  · exact main dirs _ _ (Or.inr (by decide))
  · exact main dirs _ _ (Or.inl rfl)

/-- Witness for C8 at a concrete directory set and path pair. -/
theorem moveGoal_rejects_witness :
    MoveGoal ["parent".toList, "parent/child".toList] "parent".toList "parent/child".toList =
      .error .invalidOperation :=
  (moveGoal_rejects_self_and_descendant).1 _ _ _ (Or.inr (by decide))

/-! ## Store: AddNote (store.go AddNote) -/

/-- Date heading built by AddNote (store.go line 300): the characters of
"## " followed by today's formatted date. -/
def dateHeader (today : List Char) : List Char := '#' :: '#' :: ' ' :: today

/-- Padding AddNote applies to a body before appending a fresh date heading
(store.go lines 316-321): ensure the body ends with a newline, then add a blank
separator line — both only when the body is non-empty. -/
def padBody (body : List Char) : List Char :=
  let body1 := if body ≠ [] ∧ endsWithNl body = false then body ++ ['\n'] else body
  if body ≠ [] then body1 ++ ['\n'] else body1

/-- AddNote body update from store.go lines 293-329 (strings.Contains agrees with
strings.Index being non-negative, so the branch is taken on findSub directly): when
the date heading already occurs, the new bullet is inserted right after the first
line containing the heading; otherwise the padded body gets the heading plus the
bullet appended. -/
def AddNote (today body text : List Char) : List Char :=
  match findSub (dateHeader today) body with
  | some idx =>
    match findSub ['\n'] (body.drop (idx + (dateHeader today).length)) with
    | none => body ++ '\n' :: '-' :: ' ' :: (text ++ ['\n'])
    | some nlIdx =>
      body.take (idx + (dateHeader today).length + nlIdx + 1)
        ++ '-' :: ' ' :: (text ++ '\n' :: body.drop (idx + (dateHeader today).length + nlIdx + 1))
  | none => padBody body ++ dateHeader today ++ '\n' :: '-' :: ' ' :: (text ++ ['\n'])

theorem startsWith_drop_ge (p s : List Char) (hp : p ≠ []) (j : Nat) (hj : s.length ≤ j) :
    startsWith p (s.drop j) = false := by
  have : s.drop j = [] := List.drop_eq_nil_of_le hj
  exact startsWith_nil_false p _ hp this

theorem startsWith_drop_all_false (p s : List Char) (hp : p ≠ []) (h : countSub p s = 0) :
    ∀ j, startsWith p (s.drop j) = false := by
  intro j
  by_cases hj : j < s.length
  · exact (countSub_eq_zero_iff p s).mp h j hj
  · exact startsWith_drop_ge p s hp j (by omega)

theorem findSub_none_of_countSub_zero (p s : List Char) (hp : p ≠ []) (h : countSub p s = 0) :
    findSub p s = none :=
  (findSub_none_iff p s).mpr (startsWith_drop_all_false p s hp h)

theorem countSub_append_nl (p s : List Char) (hp : p ≠ []) (hnl : '\n' ∉ p) :
    countSub p (s ++ ['\n']) = countSub p s := by
  have := countSub_split_nl p s [] hp hnl
  simpa [countSub] using this

theorem countSub_cons_of_head_ne (a c : Char) (ps w : List Char) (h : (a == c) = false) :
    countSub (a :: ps) (c :: w) = countSub (a :: ps) w := by
  simp [countSub, startsWith, h]

theorem findSub_at_boundary (pat A w : List Char) (hp : pat ≠ []) (hnlp : '\n' ∉ pat)
    (h0 : countSub pat A = 0) (hlast : A = [] ∨ A.getLast? = some '\n') :
    findSub pat (A ++ pat ++ w) = some A.length := by
  rw [List.append_assoc]
  refine findSub_first pat _ A.length ?_ ?_
  · rw [List.drop_left]
    exact startsWith_append_self pat w
  · intro j hj
    have hdrop : (A ++ (pat ++ w)).drop j = A.drop j ++ (pat ++ w) := by
      rw [List.drop_append_eq_append_drop]
      have hz : j - A.length = 0 := by omega
      rw [hz, List.drop_zero]
    rw [hdrop]
    by_cases hcase : pat.length ≤ A.length - j
    · rw [startsWith_of_append_left pat (A.drop j) (pat ++ w) (by simp; omega)]
      exact startsWith_drop_all_false pat A hp h0 j
    · rcases hlast with hA | hlastnl
      · subst hA; simp at hj
      · cases hsw : startsWith pat (A.drop j ++ (pat ++ w)) with
        | false => rfl
        | true =>
          exfalso
          have hk : A.length - j - 1 < pat.length := by omega
          have h1 := startsWith_getElem pat _ hsw (A.length - j - 1) hk
          have h2 : (A.drop j ++ (pat ++ w))[A.length - j - 1]? = (A.drop j)[A.length - j - 1]? := by
            rw [List.getElem?_append, if_pos]
            simp; omega
          have h3 : (A.drop j)[A.length - j - 1]? = A[j + (A.length - j - 1)]? :=
            List.getElem?_drop A j (A.length - j - 1)
          have h4 : j + (A.length - j - 1) = A.length - 1 := by omega
          have h5 : A[A.length - 1]? = some '\n' := by
            rw [← List.getLast?_eq_getElem?]
            exact hlastnl
          have h6 : pat[A.length - j - 1]? = some '\n' := by
            rw [← h1, h2, h3, h4, h5]
          exact hnlp (List.getElem?_mem h6)

theorem padBody_last (body : List Char) :
    padBody body = [] ∨ (padBody body).getLast? = some '\n' := by
  unfold padBody
  by_cases hb : body = []
  · subst hb; left; simp
  · right
    rw [if_pos hb]
    exact List.getLast?_concat _

theorem countSub_padBody (pat body : List Char) (hp : pat ≠ []) (hnl : '\n' ∉ pat)
    (hb : countSub pat body = 0) : countSub pat (padBody body) = 0 := by
  unfold padBody
  by_cases h1 : body ≠ [] ∧ endsWithNl body = false
  · rw [if_pos h1, if_pos h1.1]
    rw [countSub_append_nl pat _ hp hnl, countSub_append_nl pat _ hp hnl]
    exact hb
  · rw [if_neg h1]
    by_cases h2 : body = []
    · rw [if_neg (by simp [h2])]
      exact hb
    · rw [if_pos h2]
      rw [countSub_append_nl pat _ hp hnl]
      exact hb

theorem countSub_padBody_self (pat body : List Char) (hp : pat ≠ []) (hnl : '\n' ∉ pat)
    (hb : countSub pat body = 0) : countSub pat (padBody body ++ pat) = 1 := by
  by_cases h2 : body = []
  · subst h2
    have hpb : padBody ([] : List Char) = [] := by simp [padBody]
    rw [hpb, List.nil_append]
    exact countSub_self pat hp
  · have hpb : padBody body
        = (if body ≠ [] ∧ endsWithNl body = false then body ++ ['\n'] else body) ++ ['\n'] := by
      unfold padBody
      rw [if_pos h2]
    rw [hpb]
    have hsplit : (if body ≠ [] ∧ endsWithNl body = false then body ++ ['\n'] else body)
        ++ ['\n'] ++ pat
        = (if body ≠ [] ∧ endsWithNl body = false then body ++ ['\n'] else body)
          ++ '\n' :: pat := by simp
    rw [hsplit, countSub_split_nl _ _ _ hp hnl, countSub_self pat hp]
    by_cases h1 : body ≠ [] ∧ endsWithNl body = false
    · rw [if_pos h1, countSub_append_nl _ _ hp hnl, hb]
    · rw [if_neg h1, hb]

/-- Counterexample to C3 as stated: two notes a then b added to an empty body on date
2026-10-11 produce one heading with the second-added bullet "- b" at index 14,
strictly before the first-added bullet "- a" at index 18 — the opposite of the claimed
insertion order. -/
theorem addNote_insertion_order_counterexample :
    AddNote "2026-10-11".toList (AddNote "2026-10-11".toList [] "a".toList) "b".toList
      = "## 2026-10-11\n- b\n- a\n".toList ∧
    findSub "- b".toList
      (AddNote "2026-10-11".toList (AddNote "2026-10-11".toList [] "a".toList) "b".toList)
      = some 14 ∧
    findSub "- a".toList
      (AddNote "2026-10-11".toList (AddNote "2026-10-11".toList [] "a".toList) "b".toList)
      = some 18 := by
  decide

/-- C3 (amended): for every body that does not already contain the date's heading, and
notes that do not contain it either, adding two notes on the same date via AddNote
yields exactly one heading for that date with both bullet lines directly beneath it,
in reverse insertion order — the second-added note's bullet lies immediately under the
heading, before the first-added note's bullet. -/
theorem addNote_same_day_grouping (today body t1 t2 : List Char)
    (hnl : '\n' ∉ today)
    (hb : countSub (dateHeader today) body = 0)
    (h1 : countSub (dateHeader today) t1 = 0)
    (h2 : countSub (dateHeader today) t2 = 0) :
    AddNote today (AddNote today body t1) t2
      = padBody body ++ dateHeader today ++
        '\n' :: '-' :: ' ' :: (t2 ++ '\n' :: '-' :: ' ' :: (t1 ++ ['\n'])) ∧
    countSub (dateHeader today)
      (AddNote today (AddNote today body t1) t2) = 1 := by
  have hdrne : dateHeader today ≠ [] := by simp [dateHeader]
  have hdrnl : '\n' ∉ dateHeader today := by
    intro hmem
    simp only [dateHeader, List.mem_cons] at hmem
    rcases hmem with h | h | h | h
    · exact absurd h (by decide)
    · exact absurd h (by decide)
    · exact absurd h (by decide)
    · exact hnl h
  have hfs1 : findSub (dateHeader today) body = none :=
    findSub_none_of_countSub_zero _ _ hdrne hb
  have e1 : AddNote today body t1
      = padBody body ++ dateHeader today ++ '\n' :: '-' :: ' ' :: (t1 ++ ['\n']) := by
    simp only [AddNote, hfs1]
  have hcA : countSub (dateHeader today) (padBody body) = 0 :=
    countSub_padBody _ _ hdrne hdrnl hb
  have hfs2 : findSub (dateHeader today)
      (padBody body ++ dateHeader today ++ '\n' :: '-' :: ' ' :: (t1 ++ ['\n']))
      = some (padBody body).length :=
    findSub_at_boundary _ _ _ hdrne hdrnl hcA (padBody_last body)
  have hdrop : (padBody body ++ dateHeader today ++ '\n' :: '-' :: ' ' :: (t1 ++ ['\n'])).drop
      ((padBody body).length + (dateHeader today).length)
      = '\n' :: '-' :: ' ' :: (t1 ++ ['\n']) := by
    rw [← List.length_append]
    exact List.drop_left _ _
  have hnl0 : findSub ['\n'] ('\n' :: '-' :: ' ' :: (t1 ++ ['\n'])) = some 0 := by
    simp [findSub, startsWith]
  have htake : (padBody body ++ dateHeader today ++ '\n' :: '-' :: ' ' :: (t1 ++ ['\n'])).take
      ((padBody body).length + (dateHeader today).length + 0 + 1)
      = padBody body ++ dateHeader today ++ ['\n'] := by
    have hsplit : padBody body ++ dateHeader today ++ '\n' :: '-' :: ' ' :: (t1 ++ ['\n'])
        = (padBody body ++ dateHeader today ++ ['\n']) ++ ('-' :: ' ' :: (t1 ++ ['\n'])) := by
      simp
    rw [hsplit]
    have hlen : (padBody body).length + (dateHeader today).length + 0 + 1
        = (padBody body ++ dateHeader today ++ ['\n']).length := by
      simp only [List.length_append, List.length_cons, List.length_nil]
    rw [hlen]
    exact List.take_left _ _
  have hdrop2 : (padBody body ++ dateHeader today ++ '\n' :: '-' :: ' ' :: (t1 ++ ['\n'])).drop
      ((padBody body).length + (dateHeader today).length + 0 + 1)
      = '-' :: ' ' :: (t1 ++ ['\n']) := by
    have hsplit : padBody body ++ dateHeader today ++ '\n' :: '-' :: ' ' :: (t1 ++ ['\n'])
        = (padBody body ++ dateHeader today ++ ['\n']) ++ ('-' :: ' ' :: (t1 ++ ['\n'])) := by
      simp
    rw [hsplit]
    have hlen : (padBody body).length + (dateHeader today).length + 0 + 1
        = (padBody body ++ dateHeader today ++ ['\n']).length := by
      simp only [List.length_append, List.length_cons, List.length_nil]
    rw [hlen]
    exact List.drop_left _ _
  have e2 : AddNote today (AddNote today body t1) t2
      = padBody body ++ dateHeader today ++
        '\n' :: '-' :: ' ' :: (t2 ++ '\n' :: '-' :: ' ' :: (t1 ++ ['\n'])) := by
    rw [e1]
    simp only [AddNote, hfs2, hdrop, hnl0, htake, hdrop2]
    simp
  refine ⟨e2, ?_⟩
  rw [e2]
  have hshape : padBody body ++ dateHeader today ++
      '\n' :: '-' :: ' ' :: (t2 ++ '\n' :: '-' :: ' ' :: (t1 ++ ['\n']))
      = (padBody body ++ dateHeader today) ++
        '\n' :: ('-' :: ' ' :: (t2 ++ '\n' :: ('-' :: ' ' :: (t1 ++ ['\n'])))) := by
    simp
  rw [hshape, countSub_split_nl _ _ _ hdrne hdrnl]
  have hc1 : countSub (dateHeader today) (padBody body ++ dateHeader today) = 1 :=
    countSub_padBody_self _ _ hdrne hdrnl hb
  have hc2 : countSub (dateHeader today)
      ('-' :: ' ' :: (t2 ++ '\n' :: ('-' :: ' ' :: (t1 ++ ['\n'])))) = 0 := by
    simp only [dateHeader]
    rw [countSub_cons_of_head_ne '#' '-' _ _ (by decide),
      countSub_cons_of_head_ne '#' ' ' _ _ (by decide)]
    have hsplit := countSub_split_nl ('#' :: '#' :: ' ' :: today) t2
      ('-' :: ' ' :: (t1 ++ ['\n'])) (by simp) (by simpa [dateHeader] using hdrnl)
    rw [hsplit]
    have hz2 : countSub ('#' :: '#' :: ' ' :: today) t2 = 0 := by
      simpa [dateHeader] using h2
    rw [hz2,
      countSub_cons_of_head_ne '#' '-' _ _ (by decide),
      countSub_cons_of_head_ne '#' ' ' _ _ (by decide)]
    have happ : countSub ('#' :: '#' :: ' ' :: today) (t1 ++ ['\n'])
        = countSub ('#' :: '#' :: ' ' :: today) t1 :=
      countSub_append_nl _ _ (by simp) (by simpa [dateHeader] using hdrnl)
    rw [happ]
    simpa [dateHeader] using h1
  rw [hc1, hc2]

/-- Witness for C3's amended theorem: the two notes a then b on an empty body on date
2026-10-11, with all side conditions discharged concretely. -/
theorem addNote_same_day_grouping_witness :
    AddNote "2026-10-11".toList (AddNote "2026-10-11".toList [] "a".toList) "b".toList
      = padBody [] ++ dateHeader "2026-10-11".toList ++
        '\n' :: '-' :: ' ' :: ("b".toList ++ '\n' :: '-' :: ' ' :: ("a".toList ++ ['\n'])) :=
  (addNote_same_day_grouping "2026-10-11".toList [] "a".toList "b".toList
    (by decide) (by decide) (by decide) (by decide)).1

/-! ## Frontmatter codec (src/unnamed/part_001 ParseFrontmatter / SerializeFrontmatter) -/

/-- Frontmatter delimiter constant "---". -/
def fmDelim : List Char := ['-', '-', '-']

/-- The closing-delimiter search pattern "\n---" used by ParseFrontmatter. -/
def nlDelim : List Char := '\n' :: fmDelim

/-- ParseError taxonomy of the codec: unclosed frontmatter delimiter, or structured
data the YAML decoder rejects. -/
inductive ParseError where
  | unclosed
  | badYaml
deriving DecidableEq

/-- Key of the title line of the modelled metadata block. -/
def keyTitle : List Char := ['t', 'i', 't', 'l', 'e', ':', ' ']

/-- Key of the status line of the modelled metadata block. -/
def keyStatus : List Char := ['s', 't', 'a', 't', 'u', 's', ':', ' ']

/-- Key of the horizon line of the modelled metadata block. -/
def keyHorizon : List Char := ['h', 'o', 'r', 'i', 'z', 'o', 'n', ':', ' ']

/-- Key of the created line of the modelled metadata block. -/
def keyCreated : List Char := ['c', 'r', 'e', 'a', 't', 'e', 'd', ':', ' ']

/-- Key of the updated line of the modelled metadata block. -/
def keyUpdated : List Char := ['u', 'p', 'd', 'a', 't', 'e', 'd', ':', ' ']

/-- Key of one tags entry line of the modelled metadata block. -/
def keyTag : List Char := ['t', 'a', 'g', ':', ' ']

/-- Key of one links entry line (label, a space, then the URL). -/
def keyLink : List Char := ['l', 'i', 'n', 'k', ':', ' ']

/-- Key of one children_order entry line of the modelled metadata block. -/
def keyChild : List Char := ['c', 'h', 'i', 'l', 'd', ':', ' ']

/-- Modelled from the spec: the external gopkg.in/yaml.v3 marshaller is not part of this
repository. Per spec sections 4.1 and 6 the metadata block is structured key/value
data holding title, status, horizon (omitted when empty, meaning future), created,
updated, tags (omitted if empty), links (label-to-URL mapping, omitted if empty) and
children_order (omitted if empty); the model emits one key/value line per entry. -/
def yamlLines (g : Goal) : List (List Char) :=
  [keyTitle ++ g.title, keyStatus ++ g.status]
  ++ (if g.horizon = [] then [] else [keyHorizon ++ g.horizon])
  ++ [keyCreated ++ g.created, keyUpdated ++ g.updated]
  ++ g.tags.map (fun t => keyTag ++ t)
  ++ g.links.map (fun kv => keyLink ++ kv.1 ++ ' ' :: kv.2)
  ++ g.childrenOrder.map (fun c => keyChild ++ c)

/-- Modelled from the spec: the rendered metadata block, the lines joined by
newlines. -/
def yamlMarshal (g : Goal) : List Char := List.intercalate ['\n'] (yamlLines g)

/-- Modelled from the spec: decoding of one line of the metadata block by the external
YAML unmarshaller; empty lines are skipped, a line with an unknown key is a decode
error. -/
def yamlLine (g : Goal) (line : List Char) : Option Goal :=
  if line = [] then some g
  else if startsWith keyTitle line then some { g with title := line.drop keyTitle.length }
  else if startsWith keyStatus line then some { g with status := line.drop keyStatus.length }
  else if startsWith keyHorizon line then some { g with horizon := line.drop keyHorizon.length }
  else if startsWith keyCreated line then some { g with created := line.drop keyCreated.length }
  else if startsWith keyUpdated line then some { g with updated := line.drop keyUpdated.length }
  else if startsWith keyTag line then some { g with tags := g.tags ++ [line.drop keyTag.length] }
  else if startsWith keyLink line then
    some { g with links := g.links ++
      [((line.drop keyLink.length).takeWhile (fun c => !(c == ' ')),
        ((line.drop keyLink.length).dropWhile (fun c => !(c == ' '))).drop 1)] }
  else if startsWith keyChild line then
    some { g with childrenOrder := g.childrenOrder ++ [line.drop keyChild.length] }
  else none

/-- Modelled from the spec: decoding of a whole metadata block, starting from the
zero-valued record as yaml.Unmarshal does. -/
def yamlUnmarshal (y : List Char) : Option Goal :=
  (y.splitOn '\n').foldlM yamlLine zeroGoal

/-- Body of ParseFrontmatter (src/unnamed/part_001 lines 79-105) applied to the
already-trimmed content: bail out to a body-only goal when the leading delimiter is
missing; fail when the closing "\n---" is missing; otherwise decode the block and keep
everything after the closing delimiter, with leading newlines stripped, as the body. -/
def parseFrontmatterAfterTrim (content : List Char) : Except ParseError Goal :=
  if startsWith fmDelim content then
    match findSub nlDelim (content.drop fmDelim.length) with
    | none => .error .unclosed
    | some idx =>
      match yamlUnmarshal ((content.drop fmDelim.length).take idx) with
      | none => .error .badYaml
      | some g =>
        .ok { g with
          body := trimLeftNl ((content.drop fmDelim.length).drop (idx + nlDelim.length)) }
  else .ok { zeroGoal with body := content }

/-- ParseFrontmatter from src/unnamed/part_001: the input is passed through
strings.TrimSpace first. -/
def ParseFrontmatter (content : List Char) : Except ParseError Goal :=
  parseFrontmatterAfterTrim (trimSpace content)

/-- SerializeFrontmatter from src/unnamed/part_001 lines 108-130: delimiter, newline,
the marshalled block with trailing newlines trimmed, newline, delimiter, newline, and
— only when the body is non-empty — a blank line, the body, and a final newline when
the body does not already end with one. -/
def SerializeFrontmatter (g : Goal) : List Char :=
  fmDelim ++ ['\n'] ++ trimRightNl (yamlMarshal g) ++ ['\n'] ++ fmDelim ++ ['\n']
  ++ (if g.body = [] then []
      else ['\n'] ++ g.body ++ (if endsWithNl g.body then [] else ['\n']))

/-- Valid goals for the round-trip law: no value may span lines (no newline characters)
and a link label may not contain the space that separates it from its URL. -/
def ValidGoal (g : Goal) : Prop :=
  '\n' ∉ g.title ∧ '\n' ∉ g.status ∧ '\n' ∉ g.horizon ∧ '\n' ∉ g.created ∧
  '\n' ∉ g.updated ∧
  (∀ t ∈ g.tags, '\n' ∉ t) ∧
  (∀ kv ∈ g.links, '\n' ∉ kv.1 ∧ '\n' ∉ kv.2 ∧ ' ' ∉ kv.1) ∧
  (∀ c ∈ g.childrenOrder, '\n' ∉ c)

instance (g : Goal) : Decidable (ValidGoal g) := by
  unfold ValidGoal
  infer_instance

/-- Whitespace normalization the codec applies to the body on a round trip: trailing
whitespace is trimmed (the parser trims the whole file) and leading blank lines after
the closing marker are stripped. -/
def bodyNorm (b : List Char) : List Char := trimLeftNl (trimRightWS b)

/-- Counterexample to C7 as stated: the input consisting of a space and "---" does not
begin with the metadata marker, yet parse does not succeed with the whole input as the
body — the parser trims the input first and then fails with an unclosed-delimiter
ParseError. -/
theorem parseFrontmatter_space_marker_counterexample :
    startsWith fmDelim (' ' :: fmDelim) = false ∧
    ParseFrontmatter (' ' :: fmDelim) = .error .unclosed := by
  constructor
  · decide
  · rfl

/-- C7 (amended): for every input, if the whitespace-trimmed text begins with the
metadata marker but contains no closing marker then ParseFrontmatter returns the
unclosed-delimiter ParseError, and if the trimmed text does not begin with the marker
then parse succeeds with the trimmed input as the body and every structured field at
its zero value. -/
theorem parseFrontmatter_error_cases (text : List Char) :
    (startsWith fmDelim (trimSpace text) = true →
      findSub nlDelim ((trimSpace text).drop fmDelim.length) = none →
      ParseFrontmatter text = .error .unclosed) ∧
    (startsWith fmDelim (trimSpace text) = false →
      ParseFrontmatter text = .ok { zeroGoal with body := trimSpace text }) := by
  constructor
  · intro h1 h2
    unfold ParseFrontmatter parseFrontmatterAfterTrim
    rw [if_pos h1, h2]
  · intro h1
    unfold ParseFrontmatter parseFrontmatterAfterTrim
    rw [if_neg (by simp [h1])]

/-- Witness for C7 at two concrete inputs: an opened-but-unclosed block errors, and a
marker-free text becomes a body-only zero goal. -/
theorem parseFrontmatter_error_cases_witness :
    ParseFrontmatter "---\ntitle: x".toList = .error .unclosed ∧
    ParseFrontmatter "hello".toList = .ok { zeroGoal with body := trimSpace "hello".toList } :=
  ⟨(parseFrontmatter_error_cases "---\ntitle: x".toList).1 (by decide) (by decide),
   (parseFrontmatter_error_cases "hello".toList).2 (by decide)⟩

/-! ### Round-trip helper lemmas -/

theorem ne_true_of_false (b : Bool) (h : b = false) : ¬ (b = true) := by simp [h]

theorem startsWith_false_of_mismatch (p q v : List Char) (k : Nat)
    (hk : k < p.length) (hk2 : k < q.length) (hne : p[k]? ≠ q[k]?) :
    startsWith p (q ++ v) = false := by
  cases hsw : startsWith p (q ++ v) with
  | false => rfl
  | true =>
    exfalso
    have h1 := startsWith_getElem p _ hsw k hk
    rw [List.getElem?_append, if_pos hk2] at h1
    exact hne h1.symm

theorem intercalate_nl_cons (xs : List Char) (ys : List (List Char)) :
    List.intercalate ['\n'] (xs :: ys)
      = xs ++ if ys = [] then [] else '\n' :: List.intercalate ['\n'] ys := by
  cases ys with
  | nil => simp [List.intercalate]
  | cons z zs => simp [List.intercalate, List.intersperse]

theorem intercalate_concat_form (lines : List (List Char))
    (h : ∀ l ∈ lines, l ≠ [] ∧ '\n' ∉ l) (hne : lines ≠ []) :
    ∃ a c, List.intercalate ['\n'] lines = a ++ [c] ∧ c ≠ '\n' := by
  induction lines with
  | nil => exact absurd rfl hne
  | cons l t ih =>
    cases t with
    | nil =>
      obtain ⟨hl1, hl2⟩ := h l (List.mem_cons_self _ _)
      rcases List.eq_nil_or_concat l with h0 | ⟨a, c, h0⟩
      · exact absurd h0 hl1
      · have h0' : l = a ++ [c] := by rw [h0, List.concat_eq_append]
        have hcmem : c ∈ l := by
          rw [h0']
          exact List.mem_append_right _ (List.mem_singleton_self c)
        refine ⟨a, c, ?_, fun hc => hl2 (hc ▸ hcmem)⟩
        rw [intercalate_nl_cons]
        simp [h0']
    | cons l2 t2 =>
      obtain ⟨a, c, h1, h2⟩ := ih (fun x hx => h x (List.mem_cons_of_mem _ hx)) (by simp)
      refine ⟨l ++ '\n' :: a, c, ?_, h2⟩
      rw [intercalate_nl_cons]
      simp [h1]

theorem trimRightWS_append (a b : List Char) :
    trimRightWS (a ++ b) = if trimRightWS b = [] then trimRightWS a else a ++ trimRightWS b := by
  unfold trimRightWS
  rw [List.reverse_append, List.dropWhile_append]
  cases hdb : b.reverse.dropWhile isWSChar with
  | nil => simp
  | cons x xs => simp

theorem trimRightWS_concat_not_ws (a : List Char) (c : Char) (h : isWSChar c = false) :
    trimRightWS (a ++ [c]) = a ++ [c] := by
  unfold trimRightWS
  rw [List.reverse_append]
  have hrev : ([c] : List Char).reverse = [c] := by simp
  rw [hrev]
  have hdw : (c :: a.reverse).dropWhile isWSChar = c :: a.reverse := by
    rw [List.dropWhile_cons, if_neg (by simp [h])]
  have hcons : ([c] : List Char) ++ a.reverse = c :: a.reverse := by simp
  rw [hcons, hdw]
  simp

theorem trimRightNl_concat_not_nl (a : List Char) (c : Char) (h : (c == '\n') = false) :
    trimRightNl (a ++ [c]) = a ++ [c] := by
  unfold trimRightNl
  rw [List.reverse_append]
  have hrev : ([c] : List Char).reverse = [c] := by simp
  rw [hrev]
  have hcons : ([c] : List Char) ++ a.reverse = c :: a.reverse := by simp
  rw [hcons]
  have hdw : (c :: a.reverse).dropWhile (fun x => x == '\n') = c :: a.reverse := by
    rw [List.dropWhile_cons, if_neg (by simp [h])]
  rw [hdw]
  simp

theorem trimLeftWS_cons_not_ws (c : Char) (s : List Char) (h : isWSChar c = false) :
    trimLeftWS (c :: s) = c :: s := by
  unfold trimLeftWS
  rw [List.dropWhile_cons, if_neg (by simp [h])]

theorem trimLeftNl_cons_nl (s : List Char) : trimLeftNl ('\n' :: s) = trimLeftNl s := by
  unfold trimLeftNl
  rw [List.dropWhile_cons, if_pos (by simp)]

/-- Positions after a newline inside a header block never start with a dash: the shape
invariant of the marshalled metadata block that makes the closing-delimiter search
land exactly on the emitted closing delimiter. -/
def NlFollowOk (a : List Char) : Prop :=
  ∀ i, a[i]? = some '\n' → ∃ c, a[i + 1]? = some c ∧ c ≠ '-'

theorem nlFollowOk_of_no_nl (l : List Char) (h : '\n' ∉ l) : NlFollowOk l := by
  intro i hi
  exact absurd (List.getElem?_mem hi) h

theorem nlFollowOk_append (l a : List Char) (hl : '\n' ∉ l) (ha : NlFollowOk a) :
    NlFollowOk (l ++ a) := by
  intro i hi
  by_cases hil : i < l.length
  · rw [List.getElem?_append, if_pos hil] at hi
    exact absurd (List.getElem?_mem hi) hl
  · rw [List.getElem?_append_right (by omega)] at hi
    obtain ⟨c, hc1, hc2⟩ := ha (i - l.length) hi
    refine ⟨c, ?_, hc2⟩
    rw [List.getElem?_append_right (by omega)]
    have harith : i + 1 - l.length = i - l.length + 1 := by omega
    rw [harith]
    exact hc1

theorem nlFollowOk_cons_nl (a : List Char) (c : Char) (hc : a[0]? = some c) (hne : c ≠ '-')
    (ha : NlFollowOk a) : NlFollowOk ('\n' :: a) := by
  intro i hi
  cases i with
  | zero =>
    refine ⟨c, ?_, hne⟩
    simpa using hc
  | succ n =>
    rw [List.getElem?_cons_succ] at hi
    obtain ⟨d, hd1, hd2⟩ := ha n hi
    refine ⟨d, ?_, hd2⟩
    rw [List.getElem?_cons_succ]
    exact hd1

theorem nlFollowOk_lines (lines : List (List Char))
    (h : ∀ l ∈ lines, l ≠ [] ∧ '\n' ∉ l ∧ l[0]? ≠ some '-') (hne : lines ≠ []) :
    NlFollowOk ('\n' :: List.intercalate ['\n'] lines) := by
  induction lines with
  | nil => exact absurd rfl hne
  | cons l t ih =>
    obtain ⟨hl1, hl2, hl3⟩ := h l (List.mem_cons_self _ _)
    obtain ⟨c0, hc0⟩ : ∃ c0, l[0]? = some c0 := by
      cases l with
      | nil => exact absurd rfl hl1
      | cons x xs => exact ⟨x, by simp⟩
    have hcne : c0 ≠ '-' := fun hx => hl3 (by rw [hc0, hx])
    cases t with
    | nil =>
      have hinter : List.intercalate ['\n'] [l] = l := by
        rw [intercalate_nl_cons]
        simp
      rw [hinter]
      exact nlFollowOk_cons_nl l c0 hc0 hcne (nlFollowOk_of_no_nl l hl2)
    | cons l2 t2 =>
      rw [intercalate_nl_cons, if_neg (by simp)]
      refine nlFollowOk_cons_nl _ c0 ?_ hcne ?_
      · rw [List.getElem?_append, if_pos ?_]
        · exact hc0
        · cases l with
          | nil => exact absurd rfl hl1
          | cons x xs => simp
      · exact nlFollowOk_append l _ hl2
          (ih (fun x hx => h x (List.mem_cons_of_mem _ hx)) (by simp))

theorem no_nlDelim_before (a z : List Char) (hok : NlFollowOk a) (j : Nat) (hj : j < a.length) :
    startsWith nlDelim ((a ++ z).drop j) = false := by
  cases hsw : startsWith nlDelim ((a ++ z).drop j) with
  | false => rfl
  | true =>
    exfalso
    have h0 := startsWith_getElem _ _ hsw 0 (by decide)
    have h1 := startsWith_getElem _ _ hsw 1 (by decide)
    rw [List.getElem?_drop] at h0 h1
    have hnl0 : (nlDelim : List Char)[0]? = some '\n' := rfl
    have hnl1 : (nlDelim : List Char)[1]? = some '-' := rfl
    rw [hnl0, Nat.add_zero] at h0
    rw [hnl1] at h1
    have ha0 : a[j]? = some '\n' := by
      rw [List.getElem?_append, if_pos hj] at h0
      exact h0
    obtain ⟨c, hc1, hc2⟩ := hok j ha0
    have hlt : j + 1 < a.length := by
      by_contra hge
      have hnone : a[j + 1]? = none := List.getElem?_eq_none (by omega)
      rw [hnone] at hc1
      exact Option.noConfusion hc1
    have hcz : (a ++ z)[j + 1]? = some c := by
      rw [List.getElem?_append, if_pos hlt]
      exact hc1
    rw [h1] at hcz
    exact hc2 (Option.some.inj hcz).symm

theorem option_some_bind {α β : Type} (a : α) (f : α → Option β) : (some a >>= f) = f a := rfl

theorem takeWhile_until_space (label url : List Char) (h : ' ' ∉ label) :
    (label ++ ' ' :: url).takeWhile (fun c => !(c == ' ')) = label := by
  induction label with
  | nil => simp [List.takeWhile_cons]
  | cons c t ih =>
    have hc : (c == ' ') = false := by
      cases hb : c == ' ' with
      | false => rfl
      | true =>
        exfalso
        have hce : c = ' ' := beq_iff_eq.mp hb
        subst hce
        exact h (List.mem_cons_self _ _)
    rw [List.cons_append, List.takeWhile_cons, if_pos (by simp [hc])]
    rw [ih (fun hm => h (List.mem_cons_of_mem _ hm))]

theorem dropWhile_until_space (label url : List Char) (h : ' ' ∉ label) :
    ((label ++ ' ' :: url).dropWhile (fun c => !(c == ' '))).drop 1 = url := by
  induction label with
  | nil => simp [List.dropWhile_cons]
  | cons c t ih =>
    have hc : (c == ' ') = false := by
      cases hb : c == ' ' with
      | false => rfl
      | true =>
        exfalso
        have hce : c = ' ' := beq_iff_eq.mp hb
        subst hce
        exact h (List.mem_cons_self _ _)
    rw [List.cons_append, List.dropWhile_cons, if_pos (by simp [hc])]
    exact ih (fun hm => h (List.mem_cons_of_mem _ hm))

theorem yamlLine_title (g : Goal) (v : List Char) :
    yamlLine g (keyTitle ++ v) = some { g with title := v } := by
  unfold yamlLine
  rw [if_neg (by simp [keyTitle]), if_pos (startsWith_append_self _ _), List.drop_left]

theorem yamlLine_status (g : Goal) (v : List Char) :
    yamlLine g (keyStatus ++ v) = some { g with status := v } := by
  unfold yamlLine
  rw [if_neg (by simp [keyStatus]),
    if_neg (ne_true_of_false _ (startsWith_false_of_mismatch keyTitle keyStatus v 0
      (by decide) (by decide) (by decide))),
    if_pos (startsWith_append_self _ _), List.drop_left]

theorem yamlLine_horizon (g : Goal) (v : List Char) :
    yamlLine g (keyHorizon ++ v) = some { g with horizon := v } := by
  unfold yamlLine
  rw [if_neg (by simp [keyHorizon]),
    if_neg (ne_true_of_false _ (startsWith_false_of_mismatch keyTitle keyHorizon v 0
      (by decide) (by decide) (by decide))),
    if_neg (ne_true_of_false _ (startsWith_false_of_mismatch keyStatus keyHorizon v 0
      (by decide) (by decide) (by decide))),
    if_pos (startsWith_append_self _ _), List.drop_left]

theorem yamlLine_created (g : Goal) (v : List Char) :
    yamlLine g (keyCreated ++ v) = some { g with created := v } := by
  unfold yamlLine
  rw [if_neg (by simp [keyCreated]),
    if_neg (ne_true_of_false _ (startsWith_false_of_mismatch keyTitle keyCreated v 0
      (by decide) (by decide) (by decide))),
    if_neg (ne_true_of_false _ (startsWith_false_of_mismatch keyStatus keyCreated v 0
      (by decide) (by decide) (by decide))),
    if_neg (ne_true_of_false _ (startsWith_false_of_mismatch keyHorizon keyCreated v 0
      (by decide) (by decide) (by decide))),
    if_pos (startsWith_append_self _ _), List.drop_left]

theorem yamlLine_updated (g : Goal) (v : List Char) :
    yamlLine g (keyUpdated ++ v) = some { g with updated := v } := by
  unfold yamlLine
  rw [if_neg (by simp [keyUpdated]),
    if_neg (ne_true_of_false _ (startsWith_false_of_mismatch keyTitle keyUpdated v 0
      (by decide) (by decide) (by decide))),
    if_neg (ne_true_of_false _ (startsWith_false_of_mismatch keyStatus keyUpdated v 0
      (by decide) (by decide) (by decide))),
    if_neg (ne_true_of_false _ (startsWith_false_of_mismatch keyHorizon keyUpdated v 0
      (by decide) (by decide) (by decide))),
    if_neg (ne_true_of_false _ (startsWith_false_of_mismatch keyCreated keyUpdated v 0
      (by decide) (by decide) (by decide))),
    if_pos (startsWith_append_self _ _), List.drop_left]

theorem yamlLine_tag (g : Goal) (v : List Char) :
    yamlLine g (keyTag ++ v) = some { g with tags := g.tags ++ [v] } := by
  unfold yamlLine
  rw [if_neg (by simp [keyTag]),
    if_neg (ne_true_of_false _ (startsWith_false_of_mismatch keyTitle keyTag v 1
      (by decide) (by decide) (by decide))),
    if_neg (ne_true_of_false _ (startsWith_false_of_mismatch keyStatus keyTag v 0
      (by decide) (by decide) (by decide))),
    if_neg (ne_true_of_false _ (startsWith_false_of_mismatch keyHorizon keyTag v 0
      (by decide) (by decide) (by decide))),
    if_neg (ne_true_of_false _ (startsWith_false_of_mismatch keyCreated keyTag v 0
      (by decide) (by decide) (by decide))),
    if_neg (ne_true_of_false _ (startsWith_false_of_mismatch keyUpdated keyTag v 0
      (by decide) (by decide) (by decide))),
    if_pos (startsWith_append_self _ _), List.drop_left]

theorem yamlLine_link (g : Goal) (label url : List Char) (h : ' ' ∉ label) :
    yamlLine g (keyLink ++ (label ++ ' ' :: url))
      = some { g with links := g.links ++ [(label, url)] } := by
  unfold yamlLine
  rw [if_neg (by simp [keyLink]),
    if_neg (ne_true_of_false _ (startsWith_false_of_mismatch keyTitle keyLink _ 0
      (by decide) (by decide) (by decide))),
    if_neg (ne_true_of_false _ (startsWith_false_of_mismatch keyStatus keyLink _ 0
      (by decide) (by decide) (by decide))),
    if_neg (ne_true_of_false _ (startsWith_false_of_mismatch keyHorizon keyLink _ 0
      (by decide) (by decide) (by decide))),
    if_neg (ne_true_of_false _ (startsWith_false_of_mismatch keyCreated keyLink _ 0
      (by decide) (by decide) (by decide))),
    if_neg (ne_true_of_false _ (startsWith_false_of_mismatch keyUpdated keyLink _ 0
      (by decide) (by decide) (by decide))),
    if_neg (ne_true_of_false _ (startsWith_false_of_mismatch keyTag keyLink _ 0
      (by decide) (by decide) (by decide))),
    if_pos (startsWith_append_self _ _), List.drop_left,
    takeWhile_until_space label url h, dropWhile_until_space label url h]

theorem yamlLine_child (g : Goal) (v : List Char) :
    yamlLine g (keyChild ++ v) = some { g with childrenOrder := g.childrenOrder ++ [v] } := by
  unfold yamlLine
  rw [if_neg (by simp [keyChild]),
    if_neg (ne_true_of_false _ (startsWith_false_of_mismatch keyTitle keyChild v 0
      (by decide) (by decide) (by decide))),
    if_neg (ne_true_of_false _ (startsWith_false_of_mismatch keyStatus keyChild v 0
      (by decide) (by decide) (by decide))),
    if_neg (ne_true_of_false _ (startsWith_false_of_mismatch keyHorizon keyChild v 0
      (by decide) (by decide) (by decide))),
    if_neg (ne_true_of_false _ (startsWith_false_of_mismatch keyCreated keyChild v 1
      (by decide) (by decide) (by decide))),
    if_neg (ne_true_of_false _ (startsWith_false_of_mismatch keyUpdated keyChild v 0
      (by decide) (by decide) (by decide))),
    if_neg (ne_true_of_false _ (startsWith_false_of_mismatch keyTag keyChild v 1
      (by decide) (by decide) (by decide))),
    if_neg (ne_true_of_false _ (startsWith_false_of_mismatch keyLink keyChild v 0
      (by decide) (by decide) (by decide))),
    if_pos (startsWith_append_self _ _), List.drop_left]

theorem foldlM_tag_lines (ts : List (List Char)) (g : Goal) :
    List.foldlM yamlLine g (ts.map (fun t => keyTag ++ t))
      = some { g with tags := g.tags ++ ts } := by
  induction ts generalizing g with
  | nil => simp
  | cons t rest ih =>
    rw [List.map_cons, List.foldlM_cons, yamlLine_tag, option_some_bind, ih]
    simp

theorem foldlM_link_lines (ls : List (List Char × List Char)) (g : Goal)
    (h : ∀ kv ∈ ls, ' ' ∉ kv.1) :
    List.foldlM yamlLine g (ls.map (fun kv => keyLink ++ kv.1 ++ ' ' :: kv.2))
      = some { g with links := g.links ++ ls } := by
  induction ls generalizing g with
  | nil => simp
  | cons kv rest ih =>
    have hkey : keyLink ++ kv.1 ++ ' ' :: kv.2 = keyLink ++ (kv.1 ++ ' ' :: kv.2) := by
      simp
    rw [List.map_cons, List.foldlM_cons, hkey,
      yamlLine_link g kv.1 kv.2 (h kv (List.mem_cons_self _ _)), option_some_bind,
      ih _ (fun x hx => h x (List.mem_cons_of_mem _ hx))]
    simp

theorem foldlM_child_lines (cs : List (List Char)) (g : Goal) :
    List.foldlM yamlLine g (cs.map (fun c => keyChild ++ c))
      = some { g with childrenOrder := g.childrenOrder ++ cs } := by
  induction cs generalizing g with
  | nil => simp
  | cons c rest ih =>
    rw [List.map_cons, List.foldlM_cons, yamlLine_child, option_some_bind, ih]
    simp

theorem line_shape_of_key (k v : List Char) (hk0 : k ≠ []) (hknl : '\n' ∉ k)
    (hkd : k[0]? ≠ some '-') (hvnl : '\n' ∉ v) :
    k ++ v ≠ [] ∧ '\n' ∉ k ++ v ∧ (k ++ v)[0]? ≠ some '-' := by
  refine ⟨?_, ?_, ?_⟩
  · cases k with
    | nil => exact absurd rfl hk0
    | cons x xs => simp
  · intro hm
    rcases List.mem_append.mp hm with hm | hm
    · exact hknl hm
    · exact hvnl hm
  · rw [List.getElem?_append, if_pos ?_]
    · exact hkd
    · cases k with
      | nil => exact absurd rfl hk0
      | cons x xs => simp

theorem yamlLines_ne_nil (g : Goal) : yamlLines g ≠ [] := by
  unfold yamlLines
  simp

theorem yamlLines_shape (g : Goal) (hv : ValidGoal g) :
    ∀ l ∈ yamlLines g, l ≠ [] ∧ '\n' ∉ l ∧ l[0]? ≠ some '-' := by
  unfold ValidGoal at hv
  obtain ⟨hv1, hv2, hv3, hv4, hv5, hv6, hv7, hv8⟩ := hv
  intro l hl
  unfold yamlLines at hl
  rcases List.mem_append.mp hl with hl5 | hlc
  · rcases List.mem_append.mp hl5 with hl4 | hll
    · rcases List.mem_append.mp hl4 with hl3 | hlt
      · rcases List.mem_append.mp hl3 with hl2 | hlcd
        · rcases List.mem_append.mp hl2 with hlab | hlopt
          · rcases List.mem_cons.mp hlab with h | h
            · subst h
              exact line_shape_of_key keyTitle _ (by decide) (by decide) (by decide) hv1
            · rcases List.mem_cons.mp h with h | h
              · subst h
                exact line_shape_of_key keyStatus _ (by decide) (by decide) (by decide) hv2
              · exact absurd h (List.not_mem_nil _)
          · by_cases hh : g.horizon = []
            · rw [if_pos hh] at hlopt
              exact absurd hlopt (List.not_mem_nil _)
            · rw [if_neg hh] at hlopt
              rcases List.mem_cons.mp hlopt with h | h
              · subst h
                exact line_shape_of_key keyHorizon _ (by decide) (by decide) (by decide) hv3
              · exact absurd h (List.not_mem_nil _)
        · rcases List.mem_cons.mp hlcd with h | h
          · subst h
            exact line_shape_of_key keyCreated _ (by decide) (by decide) (by decide) hv4
          · rcases List.mem_cons.mp h with h | h
            · subst h
              exact line_shape_of_key keyUpdated _ (by decide) (by decide) (by decide) hv5
            · exact absurd h (List.not_mem_nil _)
      · obtain ⟨t, ht, rfl⟩ := List.mem_map.mp hlt
        exact line_shape_of_key keyTag _ (by decide) (by decide) (by decide) (hv6 t ht)
    · obtain ⟨kv, hkv, hkveq⟩ := List.mem_map.mp hll
      have hkey : keyLink ++ kv.1 ++ ' ' :: kv.2 = keyLink ++ (kv.1 ++ ' ' :: kv.2) := by simp
      rw [← hkveq, hkey]
      refine line_shape_of_key keyLink _ (by decide) (by decide) (by decide) ?_
      intro hm
      rcases List.mem_append.mp hm with hm | hm
      · exact (hv7 kv hkv).1 hm
      · rcases List.mem_cons.mp hm with hm | hm
        · exact absurd hm (by decide)
        · exact (hv7 kv hkv).2.1 hm
  · obtain ⟨c, hc, rfl⟩ := List.mem_map.mp hlc
    exact line_shape_of_key keyChild _ (by decide) (by decide) (by decide) (hv8 c hc)

theorem foldlM_yamlLines_eval (g : Goal) (hlinks : ∀ kv ∈ g.links, ' ' ∉ kv.1) :
    List.foldlM yamlLine zeroGoal (yamlLines g) = some { g with body := [] } := by
  obtain ⟨gt, gs, gh, gc, gu, gtg, glk, gco, gb⟩ := g
  simp only at hlinks
  unfold yamlLines
  simp only
  by_cases hh : gh = []
  · subst hh
    have hform : ([keyTitle ++ gt, keyStatus ++ gs]
          ++ (if ([] : List Char) = [] then [] else [keyHorizon ++ ([] : List Char)])
          ++ [keyCreated ++ gc, keyUpdated ++ gu]
          ++ gtg.map (fun t => keyTag ++ t)
          ++ glk.map (fun kv => keyLink ++ kv.1 ++ ' ' :: kv.2)
          ++ gco.map (fun c => keyChild ++ c))
        = (keyTitle ++ gt) :: (keyStatus ++ gs) :: (keyCreated ++ gc) :: (keyUpdated ++ gu) ::
          (gtg.map (fun t => keyTag ++ t)
            ++ (glk.map (fun kv => keyLink ++ kv.1 ++ ' ' :: kv.2)
              ++ gco.map (fun c => keyChild ++ c))) := by
      simp
    rw [hform,
      List.foldlM_cons, yamlLine_title, option_some_bind,
      List.foldlM_cons, yamlLine_status, option_some_bind,
      List.foldlM_cons, yamlLine_created, option_some_bind,
      List.foldlM_cons, yamlLine_updated, option_some_bind,
      List.foldlM_append, foldlM_tag_lines, option_some_bind,
      List.foldlM_append, foldlM_link_lines _ _ hlinks, option_some_bind,
      foldlM_child_lines]
    rfl
  · have hform : ([keyTitle ++ gt, keyStatus ++ gs]
          ++ (if gh = [] then [] else [keyHorizon ++ gh])
          ++ [keyCreated ++ gc, keyUpdated ++ gu]
          ++ gtg.map (fun t => keyTag ++ t)
          ++ glk.map (fun kv => keyLink ++ kv.1 ++ ' ' :: kv.2)
          ++ gco.map (fun c => keyChild ++ c))
        = (keyTitle ++ gt) :: (keyStatus ++ gs) :: (keyHorizon ++ gh) :: (keyCreated ++ gc) ::
          (keyUpdated ++ gu) ::
          (gtg.map (fun t => keyTag ++ t)
            ++ (glk.map (fun kv => keyLink ++ kv.1 ++ ' ' :: kv.2)
              ++ gco.map (fun c => keyChild ++ c))) := by
      rw [if_neg hh]
      simp
    rw [hform,
      List.foldlM_cons, yamlLine_title, option_some_bind,
      List.foldlM_cons, yamlLine_status, option_some_bind,
      List.foldlM_cons, yamlLine_horizon, option_some_bind,
      List.foldlM_cons, yamlLine_created, option_some_bind,
      List.foldlM_cons, yamlLine_updated, option_some_bind,
      List.foldlM_append, foldlM_tag_lines, option_some_bind,
      List.foldlM_append, foldlM_link_lines _ _ hlinks, option_some_bind,
      foldlM_child_lines]
    rfl

theorem yamlUnmarshal_marshal (g : Goal) (hv : ValidGoal g) :
    yamlUnmarshal ('\n' :: yamlMarshal g) = some { g with body := [] } := by
  have hshape := yamlLines_shape g hv
  have hlinks : ∀ kv ∈ g.links, ' ' ∉ kv.1 := by
    have hv' := hv
    unfold ValidGoal at hv'
    exact fun kv hkv => (hv'.2.2.2.2.2.2.1 kv hkv).2.2
  have hform : '\n' :: yamlMarshal g = List.intercalate ['\n'] ([] :: yamlLines g) := by
    unfold yamlMarshal
    rw [intercalate_nl_cons, if_neg (yamlLines_ne_nil g)]
    simp
  have hsplit : ('\n' :: yamlMarshal g).splitOn '\n' = [] :: yamlLines g := by
    rw [hform]
    refine List.splitOn_intercalate _ '\n' ?_ (by simp)
    intro l hl
    rcases List.mem_cons.mp hl with h | h
    · subst h; simp
    · exact (hshape l h).2.1
  unfold yamlUnmarshal
  rw [hsplit, List.foldlM_cons]
  have hz : yamlLine zeroGoal [] = some zeroGoal := rfl
  rw [hz, option_some_bind]
  exact foldlM_yamlLines_eval g hlinks

theorem trimRightNl_yamlMarshal (g : Goal) (hv : ValidGoal g) :
    trimRightNl (yamlMarshal g) = yamlMarshal g := by
  have hshape := yamlLines_shape g hv
  obtain ⟨a, c, hform, hc⟩ := intercalate_concat_form (yamlLines g)
    (fun l hl => ⟨(hshape l hl).1, (hshape l hl).2.1⟩) (yamlLines_ne_nil g)
  unfold yamlMarshal
  rw [hform]
  refine trimRightNl_concat_not_nl a c ?_
  cases hb : c == '\n' with
  | false => rfl
  | true => exact absurd (beq_iff_eq.mp hb) hc

theorem nlFollowOk_yamlMarshal (g : Goal) (hv : ValidGoal g) :
    NlFollowOk ('\n' :: yamlMarshal g) := by
  unfold yamlMarshal
  exact nlFollowOk_lines (yamlLines g) (yamlLines_shape g hv) (yamlLines_ne_nil g)

theorem trimLeftWS_fmDelim_append (R : List Char) :
    trimLeftWS (fmDelim ++ R) = fmDelim ++ R := by
  have h : fmDelim ++ R = '-' :: ('-' :: '-' :: R) := by simp [fmDelim]
  rw [h, trimLeftWS_cons_not_ws _ _ (by decide)]

theorem trimRightWS_ends_fmDelim (A : List Char) :
    trimRightWS (A ++ fmDelim) = A ++ fmDelim := by
  have h : A ++ fmDelim = (A ++ ['-', '-']) ++ ['-'] := by simp [fmDelim]
  rw [h, trimRightWS_concat_not_ws _ _ (by decide)]

theorem trimRightWS_body_opt (b : List Char) :
    trimRightWS (b ++ (if endsWithNl b then [] else ['\n'])) = trimRightWS b := by
  cases h : endsWithNl b with
  | true => simp [h]
  | false =>
    simp only [h, Bool.false_eq_true, if_false]
    rw [trimRightWS_append]
    rw [if_pos (show trimRightWS ['\n'] = [] by decide)]

theorem trimSpace_serialize (g : Goal) (hv : ValidGoal g) :
    trimSpace (SerializeFrontmatter g)
      = fmDelim ++ (('\n' :: yamlMarshal g)
          ++ (nlDelim ++ (if trimRightWS g.body = [] then []
              else '\n' :: '\n' :: trimRightWS g.body))) := by
  have hY : trimRightNl (yamlMarshal g) = yamlMarshal g := trimRightNl_yamlMarshal g hv
  by_cases hbt : trimRightWS g.body = []
  · rw [if_pos hbt]
    have hXtrim : trimRightWS (SerializeFrontmatter g)
        = fmDelim ++ ['\n'] ++ yamlMarshal g ++ ['\n'] ++ fmDelim := by
      by_cases hb0 : g.body = []
      · have hS : SerializeFrontmatter g
            = (fmDelim ++ ['\n'] ++ yamlMarshal g ++ ['\n'] ++ fmDelim) ++ '\n' :: [] := by
          unfold SerializeFrontmatter
          rw [hY, if_pos hb0]
          simp
        rw [hS, trimRightWS_append]
        rw [if_pos (by decide)]
        exact trimRightWS_ends_fmDelim _
      · have hS : SerializeFrontmatter g
            = (fmDelim ++ ['\n'] ++ yamlMarshal g ++ ['\n'] ++ fmDelim)
              ++ '\n' :: '\n'
                :: (g.body ++ (if endsWithNl g.body then [] else ['\n'])) := by
          unfold SerializeFrontmatter
          rw [hY, if_neg hb0]
          simp
        rw [hS, trimRightWS_append]
        have hZ : trimRightWS ('\n' :: '\n'
            :: (g.body ++ (if endsWithNl g.body then [] else ['\n']))) = [] := by
          have hsh : ('\n' :: '\n'
              :: (g.body ++ (if endsWithNl g.body then [] else ['\n'])))
              = ['\n', '\n'] ++ (g.body ++ (if endsWithNl g.body then [] else ['\n'])) := by
            simp
          rw [hsh, trimRightWS_append, trimRightWS_body_opt, if_pos hbt]
          decide
        rw [if_pos hZ]
        exact trimRightWS_ends_fmDelim _
    unfold trimSpace
    rw [hXtrim]
    have hform : fmDelim ++ ['\n'] ++ yamlMarshal g ++ ['\n'] ++ fmDelim
        = fmDelim ++ (('\n' :: yamlMarshal g) ++ (nlDelim ++ ([] : List Char))) := by
      simp [nlDelim]
    rw [hform, trimLeftWS_fmDelim_append]
  · rw [if_neg hbt]
    have hb0 : g.body ≠ [] := by
      intro h
      exact hbt (by rw [h]; rfl)
    have hS : SerializeFrontmatter g
        = (fmDelim ++ ['\n'] ++ yamlMarshal g ++ ['\n'] ++ fmDelim)
          ++ '\n' :: '\n' :: (g.body ++ (if endsWithNl g.body then [] else ['\n'])) := by
      unfold SerializeFrontmatter
      rw [hY, if_neg hb0]
      simp
    have hZ : trimRightWS ('\n' :: '\n'
        :: (g.body ++ (if endsWithNl g.body then [] else ['\n'])))
        = '\n' :: '\n' :: trimRightWS g.body := by
      have hsh : ('\n' :: '\n' :: (g.body ++ (if endsWithNl g.body then [] else ['\n'])))
          = ['\n', '\n'] ++ (g.body ++ (if endsWithNl g.body then [] else ['\n'])) := by
        simp
      rw [hsh, trimRightWS_append, trimRightWS_body_opt, if_neg hbt]
      simp
    unfold trimSpace
    rw [hS, trimRightWS_append, hZ, if_neg (by simp)]
    have hform : (fmDelim ++ ['\n'] ++ yamlMarshal g ++ ['\n'] ++ fmDelim)
          ++ '\n' :: '\n' :: trimRightWS g.body
        = fmDelim ++ (('\n' :: yamlMarshal g)
            ++ (nlDelim ++ ('\n' :: '\n' :: trimRightWS g.body))) := by
      simp [nlDelim]
    rw [hform, trimLeftWS_fmDelim_append]

theorem parseFrontmatterAfterTrim_frame (Y E : List Char) (G : Goal)
    (hok : NlFollowOk ('\n' :: Y)) (hunm : yamlUnmarshal ('\n' :: Y) = some G) :
    parseFrontmatterAfterTrim (fmDelim ++ (('\n' :: Y) ++ (nlDelim ++ E)))
      = .ok { G with body := trimLeftNl E } := by
  have hsw : startsWith fmDelim (fmDelim ++ (('\n' :: Y) ++ (nlDelim ++ E))) = true :=
    startsWith_append_self _ _
  have hdrop3 : (fmDelim ++ (('\n' :: Y) ++ (nlDelim ++ E))).drop fmDelim.length
      = ('\n' :: Y) ++ (nlDelim ++ E) := List.drop_left _ _
  have hfind : findSub nlDelim (('\n' :: Y) ++ (nlDelim ++ E)) = some ('\n' :: Y).length :=
    findSub_first _ _ _
      (by rw [List.drop_left]; exact startsWith_append_self _ _)
      (fun j hj => no_nlDelim_before _ _ hok j hj)
  have htk : (('\n' :: Y) ++ (nlDelim ++ E)).take ('\n' :: Y).length = '\n' :: Y :=
    List.take_left _ _
  have hdr : (('\n' :: Y) ++ (nlDelim ++ E)).drop (('\n' :: Y).length + nlDelim.length)
      = E := by
    have hsh : ('\n' :: Y) ++ (nlDelim ++ E) = (('\n' :: Y) ++ nlDelim) ++ E := by simp
    rw [hsh, ← List.length_append]
    exact List.drop_left _ _
  simp only [parseFrontmatterAfterTrim, hsw, eq_self_iff_true, if_true, hdrop3, hfind,
    htk, hdr, hunm]

/-- C2: for every valid goal (no newlines inside structured values, no space inside a
link label), parsing the serialized goal succeeds and returns the goal with every
structured field — title, status, horizon, created, updated, tags, links,
children_order — intact, and the body reproduced up to the stated whitespace
normalization (trailing whitespace trimmed, leading blank lines after the closing
marker stripped). The metadata encoding itself is modelled from the spec because the
YAML library is external to this repository. -/
theorem frontmatter_round_trip (g : Goal) (hv : ValidGoal g) :
    ParseFrontmatter (SerializeFrontmatter g) = .ok { g with body := bodyNorm g.body } := by
  have hok : NlFollowOk ('\n' :: yamlMarshal g) := nlFollowOk_yamlMarshal g hv
  have hunm : yamlUnmarshal ('\n' :: yamlMarshal g) = some { g with body := [] } :=
    yamlUnmarshal_marshal g hv
  unfold ParseFrontmatter
  rw [trimSpace_serialize g hv]
  rw [parseFrontmatterAfterTrim_frame _ _ _ hok hunm]
  by_cases hbt : trimRightWS g.body = []
  · rw [if_pos hbt]
    unfold bodyNorm
    rw [hbt]
  · rw [if_neg hbt]
    unfold bodyNorm
    rw [trimLeftNl_cons_nl, trimLeftNl_cons_nl]

/-- Concrete fully-populated goal used as the round-trip witness input. -/
def sampleGoal : Goal where
  title := "iOS".toList
  status := statusIncomplete
  horizon := "today".toList
  created := "2026-02-08T10:00:00Z".toList
  updated := "2026-02-08T14:30:00Z".toList
  tags := ["mobile".toList, "otr".toList]
  links := [("pr".toList, "https://example.com/pull/42".toList)]
  childrenOrder := ["ios".toList, "android".toList]
  body := "# iOS\n\nSome notes.\n".toList

/-- Witness for C2 at a concrete valid goal with every structured field populated. -/
theorem frontmatter_round_trip_witness :
    ParseFrontmatter (SerializeFrontmatter sampleGoal)
      = .ok { sampleGoal with body := bodyNorm sampleGoal.body } :=
  frontmatter_round_trip sampleGoal (by decide)

/-! ## TUI projection (src/pkg/tui/items.go and src/unnamed/part_002) -/

mutual
/-- Goal tree node as the projection engine consumes it: title, slug, path, horizon and
the ordered children (the remaining Goal fields play no role in flattening). The
children list is represented by the mutually defined GoalForest. -/
inductive GoalNode where
  | mk (title slug path horizon : List Char) (children : GoalForest)
/-- An ordered list of goal nodes (the Children slice / the top-level goals slice). -/
inductive GoalForest where
  | nil
  | cons (head : GoalNode) (tail : GoalForest)
end

/-- Title accessor of a GoalNode. -/
def GoalNode.title : GoalNode → List Char
  | .mk t _ _ _ _ => t

/-- Slug accessor of a GoalNode. -/
def GoalNode.slug : GoalNode → List Char
  | .mk _ s _ _ _ => s

/-- Path accessor of a GoalNode. -/
def GoalNode.path : GoalNode → List Char
  | .mk _ _ p _ _ => p

/-- Horizon accessor of a GoalNode. -/
def GoalNode.horizon : GoalNode → List Char
  | .mk _ _ _ h _ => h

/-- Children accessor of a GoalNode. -/
def GoalNode.children : GoalNode → GoalForest
  | .mk _ _ _ _ cs => cs

/-- Emptiness test on a forest (len(goals) == 0 in Go). -/
def GoalForest.isEmpty : GoalForest → Bool
  | .nil => true
  | .cons _ _ => false

/-- Filter over a forest, mirroring the single-pass partition loops in Go. -/
def GoalForest.filter (p : GoalNode → Bool) : GoalForest → GoalForest
  | .nil => .nil
  | .cons g gs => if p g then .cons g (gs.filter p) else gs.filter p

/-- First goal satisfying a predicate (the break-on-first-match loops in Go). -/
def GoalForest.find? (p : GoalNode → Bool) : GoalForest → Option GoalNode
  | .nil => none
  | .cons g gs => if p g then some g else gs.find? p

/-- TreeItem from src/pkg/tui/items.go lines 8-17 (the Goal pointer is represented by
the path-based ID). -/
structure TreeItem where
  ID : List Char
  ParentID : List Char
  Name : List Char
  Depth : Nat
  HasChildren : Bool
  IsExpanded : Bool
  IsSectionHeader : Bool
deriving DecidableEq

/-- displayName from items.go lines 42-47. -/
def displayName (g : GoalNode) : List Char :=
  if g.title ≠ [] then g.title else g.slug

/-- flattenGoals from items.go lines 107-124: emit the item, then — only when it has
children and is expanded — its recursively flattened children at depth+1, then the
remaining siblings. -/
def flattenGoals (expanded : List (List Char)) :
    GoalForest → Nat → List Char → List TreeItem
  | .nil, _, _ => []
  | .cons (GoalNode.mk t s p h cs) gs, depth, parentID =>
    { ID := p, ParentID := parentID, Name := displayName (GoalNode.mk t s p h cs),
      Depth := depth, HasChildren := !cs.isEmpty, IsExpanded := expanded.contains p,
      IsSectionHeader := false }
    :: ((if !cs.isEmpty && expanded.contains p then
          flattenGoals expanded cs (depth + 1) p
        else [])
        ++ flattenGoals expanded gs depth parentID)

/-- Synthetic section-header identifier "__header_today". -/
def headerToday : List Char := "__header_today".toList

/-- Synthetic section-header identifier "__header_tomorrow". -/
def headerTomorrow : List Char := "__header_tomorrow".toList

/-- Synthetic section-header identifier "__header_future". -/
def headerFuture : List Char := "__header_future".toList

/-- Horizon constant "today". -/
def horizonToday : List Char := "today".toList

/-- Horizon constant "tomorrow". -/
def horizonTomorrow : List Char := "tomorrow".toList

/-- A non-selectable section-header row as built by FlattenWithHorizonGroups. -/
def headerItem (id name : List Char) : TreeItem :=
  { ID := id, ParentID := [], Name := name, Depth := 0, HasChildren := false,
    IsExpanded := false, IsSectionHeader := true }

/-- FlattenVisibleItems from items.go lines 52-56. -/
def FlattenVisibleItems (goals : GoalForest) (expanded : List (List Char)) :
    List TreeItem :=
  flattenGoals expanded goals 0 []

/-- FlattenWithHorizonGroups from items.go lines 59-105: partition the top-level goals
by horizon (the single-pass switch is a stable partition, rendered here as filters),
then emit each non-empty group's header followed by the group flattened at depth 1
under the header's ID. -/
def FlattenWithHorizonGroups (goals : GoalForest) (expanded : List (List Char)) :
    List TreeItem :=
  (if (goals.filter (fun g => g.horizon == horizonToday)).isEmpty then []
   else headerItem headerToday "TODAY".toList
     :: flattenGoals expanded (goals.filter (fun g => g.horizon == horizonToday)) 1
          headerToday)
  ++ (if (goals.filter (fun g => g.horizon == horizonTomorrow)).isEmpty then []
      else headerItem headerTomorrow "TOMORROW".toList
        :: flattenGoals expanded (goals.filter (fun g => g.horizon == horizonTomorrow)) 1
             headerTomorrow)
  ++ (if (goals.filter (fun g =>
          !(g.horizon == horizonToday) && !(g.horizon == horizonTomorrow))).isEmpty then []
      else headerItem headerFuture "FUTURE".toList
        :: flattenGoals expanded (goals.filter (fun g =>
             !(g.horizon == horizonToday) && !(g.horizon == horizonTomorrow))) 1
             headerFuture)

/-- FilterVisibleItems from items.go lines 128-136: keep exactly the rows whose ID is
recorded as a match or as an ancestor. -/
def FilterVisibleItems (items : List TreeItem) (matchIDs ancIDs : List (List Char)) :
    List TreeItem :=
  items.filter (fun it => matchIDs.contains it.ID || ancIDs.contains it.ID)

/-- The transient search state of the model: searchMatchIDs, searchAncIDs and the
expandedState map (sets modelled as lists with membership semantics). -/
structure SearchState where
  matchIDs : List (List Char)
  ancIDs : List (List Char)
  expanded : List (List Char)
deriving DecidableEq

/-- addSearchAncestors from src/unnamed/part_002 lines 713-732: walk up the ParentID
chain, recording each ancestor in searchAncIDs and force-expanding it, with an early
return on the empty ID or an already-recorded ID. The recursion is bounded by a fuel
argument; every call site passes allItems.length + 1, which the proofs show is never
exhausted because each recursive step records the ID of one more item. -/
def addSearchAncestors (allItems : List TreeItem) :
    Nat → SearchState → List Char → SearchState
  | 0, st, _ => st
  | fuel + 1, st, parentID =>
    if parentID = [] then st
    else if st.ancIDs.contains parentID then st
    else
      match allItems.find? (fun it => it.ID == parentID) with
      | some it =>
        if it.ParentID ≠ [] then
          addSearchAncestors allItems fuel
            { st with ancIDs := st.ancIDs ++ [parentID],
                      expanded := st.expanded ++ [parentID] }
            it.ParentID
        else
          { st with ancIDs := st.ancIDs ++ [parentID],
                    expanded := st.expanded ++ [parentID] }
      | none =>
        { st with ancIDs := st.ancIDs ++ [parentID],
                  expanded := st.expanded ++ [parentID] }

/-- One iteration of the applySearchFilter match loop (part_002 lines 701-710): section
headers are never tested; a non-header item matches when the lowered query is a
substring of its lowered display name, in which case its ID is recorded and its
ancestor chain is added. -/
def searchStep (allItems : List TreeItem) (q : List Char) (st : SearchState)
    (it : TreeItem) : SearchState :=
  if it.IsSectionHeader then st
  else if containsSub q (toLowerL it.Name) then
    addSearchAncestors allItems (allItems.length + 1)
      { st with matchIDs := st.matchIDs ++ [it.ID] } it.ParentID
  else st

/-- The match-computation pass of applySearchFilter over a given item list. -/
def applySearchFilterCore (allItems : List TreeItem) (expanded0 : List (List Char))
    (query : List Char) : SearchState :=
  allItems.foldl (searchStep allItems (toLowerL query)) ⟨[], [], expanded0⟩

/-- The item scope applySearchFilter walks (part_002 lines 686-699): the
horizon-grouped flatten under the current expandedState, replaced — not extended — by
the active queue goal's visible subtree when a queue item is active. -/
def applySearchScope (goals : GoalForest) (expanded : List (List Char))
    (queueItems : List (List Char)) (activeQueue : Nat) : List TreeItem :=
  if queueItems.length > 0 ∧ activeQueue < queueItems.length then
    match goals.find? (fun g => g.slug == queueItems.getD activeQueue []) with
    | some gm => FlattenVisibleItems (.cons gm .nil) expanded
    | none => FlattenWithHorizonGroups goals expanded
  else FlattenWithHorizonGroups goals expanded

/-- applySearchFilter from part_002 lines 675-710, for a non-empty query computing the
search state from the scope above; an empty query resets the match and ancestor
sets. -/
def applySearchFilter (goals : GoalForest) (expanded : List (List Char))
    (queueItems : List (List Char)) (activeQueue : Nat) (query : List Char) :
    SearchState :=
  if query = [] then ⟨[], [], expanded⟩
  else applySearchFilterCore (applySearchScope goals expanded queueItems activeQueue)
    expanded query

/-- Concrete child goal p/target whose display name matches the query "target". -/
def cairnChild : GoalNode := .mk "target".toList "target".toList "p/target".toList [] .nil

/-- Concrete collapsed parent goal p holding cairnChild. -/
def cairnParent : GoalNode := .mk "parent".toList "p".toList "p".toList []
  (.cons cairnChild .nil)

/-- Concrete top-level goal q whose display name also matches the query "target". -/
def cairnOther : GoalNode := .mk "target-other".toList "q".toList "q".toList [] .nil

/-- C4 (code bug): with parent p collapsed, applySearchFilter computes an empty match
set for query "target" although the display name of the child p/target — a node of
the tree — contains the query case-insensitively; the match scope is the
expanded-visible flatten rather than the full unfiltered flatten of the whole tree,
so the collapsed child is never tested, while expanding p makes the same query match
p/target. Moreover with an active queue item naming p, the matching top-level goal q
outside p's subtree is not tested either: the scope is replaced by the queue goal's
visible subtree instead of ignoring the active-queue restriction. -/
theorem applySearchFilter_misses_collapsed_child :
    (applySearchFilter (.cons cairnParent .nil) [] [] 0 "target".toList).matchIDs = [] ∧
    containsSub (toLowerL "target".toList) (toLowerL (displayName cairnChild)) = true ∧
    cairnParent.children = .cons cairnChild .nil ∧
    (applySearchFilter (.cons cairnParent .nil) ["p".toList] [] 0 "target".toList).matchIDs
      = ["p/target".toList] ∧
    containsSub (toLowerL "target".toList) (toLowerL (displayName cairnOther)) = true ∧
    (applySearchFilter (.cons cairnParent (.cons cairnOther .nil)) ["p".toList]
      ["p".toList] 0 "target".toList).matchIDs = ["p/target".toList] := by
  refine ⟨by decide, by decide, rfl, by decide, by decide, by decide⟩

/-- Membership reading of List.contains for any lawful BEq element type. -/
theorem contains_mem_iff {α : Type} [BEq α] [LawfulBEq α] (l : List α) (a : α) :
    l.contains a = true ↔ a ∈ l := by
  simp [List.contains, List.elem_iff]

/-- The ancestor chain of a parent pointer: AncChain items pid a holds when a is
reached from pid (inclusive) by repeatedly looking up the item with the current ID and
following its ParentID link, all links being nonempty. -/
inductive AncChain (items : List TreeItem) : List Char → List Char → Prop
  | here (pid : List Char) (h : pid ≠ []) : AncChain items pid pid
  | up (pid a : List Char) (it : TreeItem) (h : pid ≠ []) (hmem : it ∈ items)
      (hid : it.ID = pid) (hp : it.ParentID ≠ [])
      (hrec : AncChain items it.ParentID a) : AncChain items pid a

/-- A flattened item list is well formed when its row IDs are pairwise distinct, as
produced by the path-keyed flatten. -/
def WFItems (items : List TreeItem) : Prop := (items.map (fun it => it.ID)).Nodup

instance (items : List TreeItem) : Decidable (WFItems items) := by
  unfold WFItems
  infer_instance

theorem AncChain.pid_ne {items : List TreeItem} {pid a : List Char}
    (h : AncChain items pid a) : pid ≠ [] := by
  cases h with
  | here _ hne => exact hne
  | up _ _ _ hne _ _ _ _ => exact hne

theorem id_unique {items : List TreeItem} (hwf : WFItems items) {it it2 : TreeItem}
    (h1 : it ∈ items) (h2 : it2 ∈ items) (hid : it.ID = it2.ID) : it = it2 :=
  List.inj_on_of_nodup_map hwf h1 h2 hid

/-- Items whose ID is not yet recorded as an ancestor: the termination measure of the
ancestor walk. -/
def remainingItems (allItems : List TreeItem) (st : SearchState) : Nat :=
  (allItems.filter (fun it => !(st.ancIDs.contains it.ID))).length

theorem filter_length_mono {α : Type} (p q : α → Bool) :
    ∀ l : List α, (∀ x ∈ l, q x = true → p x = true) →
      (l.filter q).length ≤ (l.filter p).length := by
  intro l
  induction l with
  | nil => intro _; exact Nat.le_refl _
  | cons a t ih =>
    intro himp
    have iht := ih (fun x hx => himp x (List.mem_cons_of_mem a hx))
    by_cases hq : q a = true
    · have hpa := himp a (List.mem_cons_self a t) hq
      rw [List.filter_cons, List.filter_cons, if_pos hq, if_pos hpa]
      exact Nat.succ_le_succ iht
    · rw [List.filter_cons, if_neg hq, List.filter_cons]
      by_cases hp : p a = true
      · rw [if_pos hp]
        exact Nat.le_succ_of_le iht
      · rw [if_neg hp]
        exact iht

theorem filter_length_lt {α : Type} (p q : α → Bool) :
    ∀ l : List α, (∀ x ∈ l, q x = true → p x = true) →
      ∀ x ∈ l, p x = true → q x = false →
      (l.filter q).length < (l.filter p).length := by
  intro l
  induction l with
  | nil => intro _ x hx; exact absurd hx (List.not_mem_nil x)
  | cons a t ih =>
    intro himp x hx hpx hqx
    have himpt : ∀ y ∈ t, q y = true → p y = true :=
      fun y hy => himp y (List.mem_cons_of_mem a hy)
    by_cases hq : q a = true
    · have hxt : x ∈ t := by
        rcases List.mem_cons.mp hx with h | h
        · rw [h] at hqx
          rw [hqx] at hq
          exact absurd hq (by decide)
        · exact h
      have hpa := himp a (List.mem_cons_self a t) hq
      rw [List.filter_cons, List.filter_cons, if_pos hq, if_pos hpa]
      exact Nat.succ_lt_succ (ih himpt x hxt hpx hqx)
    · by_cases hxa : x = a
      · rw [List.filter_cons, List.filter_cons, if_neg hq, if_pos (hxa ▸ hpx)]
        exact Nat.lt_succ_of_le (filter_length_mono p q t himpt)
      · have hxt : x ∈ t := (List.mem_cons.mp hx).resolve_left hxa
        rw [List.filter_cons, List.filter_cons, if_neg hq]
        by_cases hp : p a = true
        · rw [if_pos hp]
          exact Nat.lt_succ_of_lt (ih himpt x hxt hpx hqx)
        · rw [if_neg hp]
          exact ih himpt x hxt hpx hqx

theorem remaining_decrease (allItems : List TreeItem) (st : SearchState)
    (pid : List Char) (it : TreeItem) (hmem : it ∈ allItems) (hid : it.ID = pid)
    (hnot : st.ancIDs.contains pid = false) :
    remainingItems allItems
      { st with ancIDs := st.ancIDs ++ [pid], expanded := st.expanded ++ [pid] }
      < remainingItems allItems st := by
  unfold remainingItems
  refine filter_length_lt _ _ allItems ?_ it hmem ?_ ?_
  · intro x hx hq
    show (!(st.ancIDs.contains x.ID)) = true
    cases hc : st.ancIDs.contains x.ID with
    | false => rfl
    | true =>
      have hm1 := (contains_mem_iff _ _).mp hc
      have hm2 : (st.ancIDs ++ [pid]).contains x.ID = true :=
        (contains_mem_iff _ _).mpr (List.mem_append_left _ hm1)
      have hq2 : (!((st.ancIDs ++ [pid]).contains x.ID)) = true := hq
      rw [hm2] at hq2
      exact absurd hq2 (by decide)
  · show (!(st.ancIDs.contains it.ID)) = true
    rw [hid, hnot]
    rfl
  · show (!((st.ancIDs ++ [pid]).contains it.ID)) = false
    have hm : (st.ancIDs ++ [pid]).contains it.ID = true :=
      (contains_mem_iff _ _).mpr
        (by rw [hid]; exact List.mem_append_right _ (List.mem_singleton_self pid))
    rw [hm]
    rfl

theorem asa_matchIDs (allItems : List TreeItem) :
    ∀ fuel st pid,
      (addSearchAncestors allItems fuel st pid).matchIDs = st.matchIDs := by
  intro fuel
  induction fuel with
  | zero => intro st pid; rfl
  | succ n ih =>
    intro st pid
    unfold addSearchAncestors
    split
    · rfl
    · split
      · rfl
      · split
        · split
          · exact ih _ _
          · rfl
        · rfl

theorem asa_anc_mono (allItems : List TreeItem) :
    ∀ fuel st pid x, x ∈ st.ancIDs →
      x ∈ (addSearchAncestors allItems fuel st pid).ancIDs := by
  intro fuel
  induction fuel with
  | zero => intro st pid x h; exact h
  | succ n ih =>
    intro st pid x h
    unfold addSearchAncestors
    split
    · exact h
    · split
      · exact h
      · split
        · split
          · exact ih _ _ x (List.mem_append_left _ h)
          · exact List.mem_append_left _ h
        · exact List.mem_append_left _ h

theorem asa_exp_mono (allItems : List TreeItem) :
    ∀ fuel st pid x, x ∈ st.expanded →
      x ∈ (addSearchAncestors allItems fuel st pid).expanded := by
  intro fuel
  induction fuel with
  | zero => intro st pid x h; exact h
  | succ n ih =>
    intro st pid x h
    unfold addSearchAncestors
    split
    · exact h
    · split
      · exact h
      · split
        · split
          · exact ih _ _ x (List.mem_append_left _ h)
          · exact List.mem_append_left _ h
        · exact List.mem_append_left _ h

theorem asa_anc_sound (allItems : List TreeItem) :
    ∀ fuel st pid x, x ∈ (addSearchAncestors allItems fuel st pid).ancIDs →
      x ∈ st.ancIDs ∨ AncChain allItems pid x := by
  intro fuel
  induction fuel with
  | zero => intro st pid x h; exact Or.inl h
  | succ n ih =>
    intro st pid x h
    by_cases h1 : pid = []
    · unfold addSearchAncestors at h
      rw [if_pos h1] at h
      exact Or.inl h
    · by_cases h2 : st.ancIDs.contains pid = true
      · unfold addSearchAncestors at h
        rw [if_neg h1, if_pos h2] at h
        exact Or.inl h
      · cases hf : allItems.find? (fun it => it.ID == pid) with
        | some it =>
          have hitmem := List.mem_of_find?_eq_some hf
          have hitid : it.ID = pid := by simpa using List.find?_some hf
          by_cases h3 : it.ParentID = []
          · unfold addSearchAncestors at h
            rw [if_neg h1, if_neg h2] at h
            simp only [hf] at h
            rw [if_neg (not_not_intro h3)] at h
            rcases List.mem_append.mp h with h4 | h4
            · exact Or.inl h4
            · refine Or.inr ?_
              rw [List.mem_singleton.mp h4]
              exact AncChain.here pid h1
          · unfold addSearchAncestors at h
            rw [if_neg h1, if_neg h2] at h
            simp only [hf] at h
            rw [if_pos h3] at h
            rcases ih _ it.ParentID x h with h4 | h4
            · rcases List.mem_append.mp h4 with h5 | h5
              · exact Or.inl h5
              · refine Or.inr ?_
                rw [List.mem_singleton.mp h5]
                exact AncChain.here pid h1
            · exact Or.inr (AncChain.up pid x it h1 hitmem hitid h3 h4)
        | none =>
          unfold addSearchAncestors at h
          rw [if_neg h1, if_neg h2] at h
          simp only [hf] at h
          rcases List.mem_append.mp h with h4 | h4
          · exact Or.inl h4
          · refine Or.inr ?_
            rw [List.mem_singleton.mp h4]
            exact AncChain.here pid h1

/-- Local closure of the recorded ancestor set: every recorded ID whose item carries a
nonempty parent pointer has that parent recorded and force-expanded as well. -/
def LocalInv (allItems : List TreeItem) (st : SearchState) : Prop :=
  ∀ i ∈ st.ancIDs, ∀ it ∈ allItems, it.ID = i → it.ParentID ≠ [] →
    it.ParentID ∈ st.ancIDs ∧ it.ParentID ∈ st.expanded

/-- Local closure up to one pending hole: the parent pointer the walk is still
processing. -/
def LocalInvHole (allItems : List TreeItem) (st : SearchState) (hole : List Char) :
    Prop :=
  ∀ i ∈ st.ancIDs, ∀ it ∈ allItems, it.ID = i → it.ParentID ≠ [] →
    (it.ParentID ∈ st.ancIDs ∧ it.ParentID ∈ st.expanded) ∨ it.ParentID = hole

/-- Every recorded ancestor is force-expanded. -/
def AncSubExp (st : SearchState) : Prop := ∀ x ∈ st.ancIDs, x ∈ st.expanded

theorem remaining_le (allItems : List TreeItem) (st : SearchState) :
    remainingItems allItems st ≤ allItems.length :=
  List.length_filter_le _ _

theorem asa_complete (allItems : List TreeItem) (hwf : WFItems allItems) :
    ∀ fuel st pid, remainingItems allItems st < fuel → AncSubExp st →
      LocalInvHole allItems st pid →
      LocalInv allItems (addSearchAncestors allItems fuel st pid) ∧
      AncSubExp (addSearchAncestors allItems fuel st pid) ∧
      (pid ≠ [] → pid ∈ (addSearchAncestors allItems fuel st pid).ancIDs) := by
  intro fuel
  induction fuel with
  | zero => intro st pid hlt; exact absurd hlt (Nat.not_lt_zero _)
  | succ n ih =>
    intro st pid hlt hsub hinv
    by_cases h1 : pid = []
    · unfold addSearchAncestors
      rw [if_pos h1]
      refine ⟨?_, hsub, fun hne => absurd h1 hne⟩
      intro i hi it hit hid hp
      rcases hinv i hi it hit hid hp with h | h
      · exact h
      · rw [h1] at h
        exact absurd h hp
    · by_cases h2 : st.ancIDs.contains pid = true
      · unfold addSearchAncestors
        rw [if_neg h1, if_pos h2]
        have hmem : pid ∈ st.ancIDs := (contains_mem_iff _ _).mp h2
        refine ⟨?_, hsub, fun _ => hmem⟩
        intro i hi it hit hid hp
        rcases hinv i hi it hit hid hp with h | h
        · exact h
        · rw [h]
          exact ⟨hmem, hsub _ hmem⟩
      · have h2f : st.ancIDs.contains pid = false := by
          cases hc : st.ancIDs.contains pid with
          | false => rfl
          | true => exact absurd hc h2
        cases hf : allItems.find? (fun it => it.ID == pid) with
        | some it =>
          have hitmem := List.mem_of_find?_eq_some hf
          have hitid : it.ID = pid := by simpa using List.find?_some hf
          by_cases h3 : it.ParentID = []
          · unfold addSearchAncestors
            rw [if_neg h1, if_neg h2]
            simp only [hf]
            rw [if_neg (not_not_intro h3)]
            refine ⟨?_, ?_, fun _ => ?_⟩
            · intro i hi it2 hit2 hid2 hp2
              rcases List.mem_append.mp hi with hi2 | hi2
              · rcases hinv i hi2 it2 hit2 hid2 hp2 with h | h
                · exact ⟨List.mem_append_left _ h.1, List.mem_append_left _ h.2⟩
                · rw [h]
                  exact ⟨List.mem_append_right _ (List.mem_singleton_self pid),
                         List.mem_append_right _ (List.mem_singleton_self pid)⟩
              · have hieq : i = pid := List.mem_singleton.mp hi2
                have heq : it2 = it :=
                  id_unique hwf hit2 hitmem (by rw [hid2, hieq, hitid])
                rw [heq] at hp2
                exact absurd h3 hp2
            · intro x hx
              rcases List.mem_append.mp hx with hx2 | hx2
              · exact List.mem_append_left _ (hsub x hx2)
              · exact List.mem_append_right _ hx2
            · exact List.mem_append_right _ (List.mem_singleton_self pid)
          · unfold addSearchAncestors
            rw [if_neg h1, if_neg h2]
            simp only [hf]
            rw [if_pos h3]
            have hdec := remaining_decrease allItems st pid it hitmem hitid h2f
            have hsub2 : AncSubExp { st with ancIDs := st.ancIDs ++ [pid], expanded := st.expanded ++ [pid] } := by
              intro x hx
              rcases List.mem_append.mp hx with hx2 | hx2
              · exact List.mem_append_left _ (hsub x hx2)
              · exact List.mem_append_right _ hx2
            have hinv2 : LocalInvHole allItems { st with ancIDs := st.ancIDs ++ [pid], expanded := st.expanded ++ [pid] } it.ParentID := by
              intro i hi it2 hit2 hid2 hp2
              rcases List.mem_append.mp hi with hi2 | hi2
              · rcases hinv i hi2 it2 hit2 hid2 hp2 with h | h
                · exact Or.inl ⟨List.mem_append_left _ h.1, List.mem_append_left _ h.2⟩
                · refine Or.inl ⟨?_, ?_⟩
                  · rw [h]
                    exact List.mem_append_right _ (List.mem_singleton_self pid)
                  · rw [h]
                    exact List.mem_append_right _ (List.mem_singleton_self pid)
              · have hieq : i = pid := List.mem_singleton.mp hi2
                have heq : it2 = it :=
                  id_unique hwf hit2 hitmem (by rw [hid2, hieq, hitid])
                exact Or.inr (by rw [heq])
            obtain ⟨hA, hB, hC⟩ := ih _ it.ParentID
              (Nat.lt_of_lt_of_le hdec (Nat.lt_succ_iff.mp hlt)) hsub2 hinv2
            refine ⟨hA, hB, fun _ => ?_⟩
            exact asa_anc_mono allItems n _ it.ParentID pid
              (List.mem_append_right _ (List.mem_singleton_self pid))
        | none =>
          unfold addSearchAncestors
          rw [if_neg h1, if_neg h2]
          simp only [hf]
          refine ⟨?_, ?_, fun _ => ?_⟩
          · intro i hi it2 hit2 hid2 hp2
            rcases List.mem_append.mp hi with hi2 | hi2
            · rcases hinv i hi2 it2 hit2 hid2 hp2 with h | h
              · exact ⟨List.mem_append_left _ h.1, List.mem_append_left _ h.2⟩
              · rw [h]
                exact ⟨List.mem_append_right _ (List.mem_singleton_self pid),
                       List.mem_append_right _ (List.mem_singleton_self pid)⟩
            · have hieq : i = pid := List.mem_singleton.mp hi2
              have hno := List.find?_eq_none.mp hf it2 hit2
              simp [hid2, hieq] at hno
          · intro x hx
            rcases List.mem_append.mp hx with hx2 | hx2
            · exact List.mem_append_left _ (hsub x hx2)
            · exact List.mem_append_right _ hx2
          · exact List.mem_append_right _ (List.mem_singleton_self pid)

theorem chain_in_anc (allItems : List TreeItem) (st : SearchState)
    (hinv : LocalInv allItems st) (hsub : AncSubExp st) :
    ∀ pid a, AncChain allItems pid a → pid ∈ st.ancIDs →
      a ∈ st.ancIDs ∧ a ∈ st.expanded := by
  intro pid a hchain
  induction hchain with
  | here p hp => intro hm; exact ⟨hm, hsub _ hm⟩
  | up p b it hp hmem hid hpar hrec ih =>
    intro hm
    exact ih (hinv p hm it hmem hid hpar).1

theorem fold_matchIDs (allItems : List TreeItem) (q : List Char) :
    ∀ l st, (List.foldl (searchStep allItems q) st l).matchIDs
      = st.matchIDs ++ (l.filter (fun it => !it.IsSectionHeader
          && containsSub q (toLowerL it.Name))).map (fun it => it.ID) := by
  intro l
  induction l with
  | nil => intro st; simp
  | cons it rest ih =>
    intro st
    rw [List.foldl_cons, ih]
    unfold searchStep
    by_cases hh : it.IsSectionHeader = true
    · rw [if_pos hh, List.filter_cons, if_neg (by simp [hh])]
    · rw [if_neg hh]
      by_cases hm : containsSub q (toLowerL it.Name) = true
      · rw [if_pos hm, asa_matchIDs, List.filter_cons, if_pos (by simp [hh, hm]),
          List.map_cons]
        simp [List.append_assoc]
      · rw [if_neg hm, List.filter_cons, if_neg (by simp [hm])]

theorem fold_anc_mono (allItems : List TreeItem) (q : List Char) :
    ∀ l st x, x ∈ st.ancIDs →
      x ∈ (List.foldl (searchStep allItems q) st l).ancIDs := by
  intro l
  induction l with
  | nil => intro st x h; exact h
  | cons it rest ih =>
    intro st x h
    rw [List.foldl_cons]
    refine ih _ x ?_
    unfold searchStep
    by_cases hh : it.IsSectionHeader = true
    · rw [if_pos hh]
      exact h
    · rw [if_neg hh]
      by_cases hm : containsSub q (toLowerL it.Name) = true
      · rw [if_pos hm]
        exact asa_anc_mono allItems _ _ _ x h
      · rw [if_neg hm]
        exact h

theorem fold_exp_mono (allItems : List TreeItem) (q : List Char) :
    ∀ l st x, x ∈ st.expanded →
      x ∈ (List.foldl (searchStep allItems q) st l).expanded := by
  intro l
  induction l with
  | nil => intro st x h; exact h
  | cons it rest ih =>
    intro st x h
    rw [List.foldl_cons]
    refine ih _ x ?_
    unfold searchStep
    by_cases hh : it.IsSectionHeader = true
    · rw [if_pos hh]
      exact h
    · rw [if_neg hh]
      by_cases hm : containsSub q (toLowerL it.Name) = true
      · rw [if_pos hm]
        exact asa_exp_mono allItems _ _ _ x h
      · rw [if_neg hm]
        exact h

theorem fold_inv (allItems : List TreeItem) (q : List Char) (hwf : WFItems allItems) :
    ∀ l st, LocalInv allItems st → AncSubExp st →
      LocalInv allItems (List.foldl (searchStep allItems q) st l) ∧
      AncSubExp (List.foldl (searchStep allItems q) st l) ∧
      (∀ it ∈ l, it.IsSectionHeader = false → containsSub q (toLowerL it.Name) = true →
        it.ParentID ≠ [] →
        it.ParentID ∈ (List.foldl (searchStep allItems q) st l).ancIDs) := by
  intro l
  induction l with
  | nil =>
    intro st hinv hsub
    exact ⟨hinv, hsub, fun it hit => absurd hit (List.not_mem_nil it)⟩
  | cons it rest ih =>
    intro st hinv hsub
    rw [List.foldl_cons]
    have hstep : LocalInv allItems (searchStep allItems q st it) ∧
        AncSubExp (searchStep allItems q st it) ∧
        (it.IsSectionHeader = false → containsSub q (toLowerL it.Name) = true →
          it.ParentID ≠ [] → it.ParentID ∈ (searchStep allItems q st it).ancIDs) := by
      unfold searchStep
      by_cases hh : it.IsSectionHeader = true
      · rw [if_pos hh]
        exact ⟨hinv, hsub, fun hh2 => absurd (hh2.symm.trans hh) (by decide)⟩
      · rw [if_neg hh]
        by_cases hm : containsSub q (toLowerL it.Name) = true
        · rw [if_pos hm]
          have hinv0 : LocalInvHole allItems
              { st with matchIDs := st.matchIDs ++ [it.ID] } it.ParentID :=
            fun i hi it2 hit2 hid2 hp2 => Or.inl (hinv i hi it2 hit2 hid2 hp2)
          have hsub0 : AncSubExp { st with matchIDs := st.matchIDs ++ [it.ID] } := hsub
          have hfuel : remainingItems allItems
              { st with matchIDs := st.matchIDs ++ [it.ID] } < allItems.length + 1 :=
            Nat.lt_succ_of_le (remaining_le allItems _)
          obtain ⟨hA, hB, hC⟩ := asa_complete allItems hwf (allItems.length + 1) _
            it.ParentID hfuel hsub0 hinv0
          exact ⟨hA, hB, fun _ _ hp => hC hp⟩
        · rw [if_neg hm]
          exact ⟨hinv, hsub, fun _ hm2 => absurd hm2 hm⟩
    obtain ⟨h1, h2, h3⟩ := hstep
    obtain ⟨hA, hB, hC⟩ := ih (searchStep allItems q st it) h1 h2
    refine ⟨hA, hB, ?_⟩
    intro it2 hit2 hh2 hm2 hp2
    rcases List.mem_cons.mp hit2 with heq | hmem
    · rw [heq]
      rw [heq] at hh2 hm2 hp2
      exact fold_anc_mono allItems q rest _ _ (h3 hh2 hm2 hp2)
    · exact hC it2 hmem hh2 hm2 hp2

theorem fold_anc_sound (allItems : List TreeItem) (q : List Char) :
    ∀ l st x, x ∈ (List.foldl (searchStep allItems q) st l).ancIDs →
      x ∈ st.ancIDs ∨ ∃ it, it ∈ l ∧ it.IsSectionHeader = false ∧
        containsSub q (toLowerL it.Name) = true ∧ AncChain allItems it.ParentID x := by
  intro l
  induction l with
  | nil => intro st x h; exact Or.inl h
  | cons it rest ih =>
    intro st x h
    rw [List.foldl_cons] at h
    rcases ih _ x h with h2 | ⟨it2, hmem, hh2, hm2, hchain⟩
    · unfold searchStep at h2
      by_cases hsh : it.IsSectionHeader = true
      · rw [if_pos hsh] at h2
        exact Or.inl h2
      · rw [if_neg hsh] at h2
        by_cases hcm : containsSub q (toLowerL it.Name) = true
        · rw [if_pos hcm] at h2
          rcases asa_anc_sound allItems _ _ _ x h2 with h3 | h3
          · exact Or.inl h3
          · refine Or.inr ⟨it, List.mem_cons_self it rest, ?_, hcm, h3⟩
            cases hb : it.IsSectionHeader with
            | false => rfl
            | true => exact absurd hb hsh
        · rw [if_neg hcm] at h2
          exact Or.inl h2
    · exact Or.inr ⟨it2, List.mem_cons_of_mem it hmem, hh2, hm2, hchain⟩

/-- C9: search-filter retention. For every well-formed flattened item list (distinct
row IDs) and non-empty query, the match pass computes: (a) a match set holding exactly
the IDs of non-header rows whose display name contains the lowered query; (b) for
every match, every ID on its ancestor chain is recorded in the ancestor set and
force-expanded, so the match is reachable; (c) conversely every recorded ancestor ID
lies on the ancestor chain of some match (nothing else is retained as an ancestor);
(d) FilterVisibleItems returns a sublist of the input, preserving original relative
order; (e) it retains exactly the rows that are matches or recorded ancestors; and
(f) a section-header row is never itself a match and survives exactly when some
match's ancestor chain reaches its synthetic ID, i.e. its group still holds a match —
an empty group's header is removed. -/
theorem searchFilter_retention (items : List TreeItem) (expanded0 : List (List Char))
    (query : List Char) (hwf : WFItems items) (hq : query ≠ []) :
    (∀ i, i ∈ (applySearchFilterCore items expanded0 query).matchIDs ↔
      ∃ it, it ∈ items ∧ it.ID = i ∧ it.IsSectionHeader = false ∧
        containsSub (toLowerL query) (toLowerL it.Name) = true) ∧
    (∀ it, it ∈ items → it.ID ∈ (applySearchFilterCore items expanded0 query).matchIDs →
      ∀ a, AncChain items it.ParentID a →
        a ∈ (applySearchFilterCore items expanded0 query).ancIDs ∧
        a ∈ (applySearchFilterCore items expanded0 query).expanded) ∧
    (∀ a, a ∈ (applySearchFilterCore items expanded0 query).ancIDs →
      ∃ it, it ∈ items ∧ it.ID ∈ (applySearchFilterCore items expanded0 query).matchIDs ∧
        AncChain items it.ParentID a) ∧
    (FilterVisibleItems items (applySearchFilterCore items expanded0 query).matchIDs
      (applySearchFilterCore items expanded0 query).ancIDs).Sublist items ∧
    (∀ it, it ∈ FilterVisibleItems items
        (applySearchFilterCore items expanded0 query).matchIDs
        (applySearchFilterCore items expanded0 query).ancIDs ↔
      it ∈ items ∧ (it.ID ∈ (applySearchFilterCore items expanded0 query).matchIDs ∨
        it.ID ∈ (applySearchFilterCore items expanded0 query).ancIDs)) ∧
    (∀ hd, hd ∈ items → hd.IsSectionHeader = true →
      hd.ID ∉ (applySearchFilterCore items expanded0 query).matchIDs ∧
      (hd.ID ∈ (applySearchFilterCore items expanded0 query).ancIDs ↔
        ∃ c, c ∈ items ∧ c.ID ∈ (applySearchFilterCore items expanded0 query).matchIDs ∧
          AncChain items c.ParentID hd.ID)) := by
  unfold applySearchFilterCore
  have hmatch : (List.foldl (searchStep items (toLowerL query)) ⟨[], [], expanded0⟩
        items).matchIDs
      = (items.filter (fun it => !it.IsSectionHeader
          && containsSub (toLowerL query) (toLowerL it.Name))).map (fun it => it.ID) := by
    rw [fold_matchIDs]
    rfl
  have hchar : ∀ i, i ∈ (List.foldl (searchStep items (toLowerL query))
        ⟨[], [], expanded0⟩ items).matchIDs ↔
      ∃ it, it ∈ items ∧ it.ID = i ∧ it.IsSectionHeader = false ∧
        containsSub (toLowerL query) (toLowerL it.Name) = true := by
    intro i
    rw [hmatch]
    constructor
    · intro h
      rcases List.mem_map.mp h with ⟨it, hmem, hid⟩
      rcases List.mem_filter.mp hmem with ⟨hin, hcond⟩
      rw [Bool.and_eq_true] at hcond
      obtain ⟨hnh, hct⟩ := hcond
      refine ⟨it, hin, hid, ?_, hct⟩
      cases hb : it.IsSectionHeader with
      | false => rfl
      | true =>
        rw [hb] at hnh
        exact absurd hnh (by decide)
    · rintro ⟨it, hin, hid, hnh, hct⟩
      refine List.mem_map.mpr ⟨it, List.mem_filter.mpr ⟨hin, ?_⟩, hid⟩
      rw [Bool.and_eq_true]
      refine ⟨?_, hct⟩
      rw [hnh]
      rfl
  obtain ⟨hInv, hSub, hPar⟩ := fold_inv items (toLowerL query) hwf items
    ⟨[], [], expanded0⟩ (fun i hi => absurd hi (List.not_mem_nil i))
    (fun x hx => absurd hx (List.not_mem_nil x))
  refine ⟨hchar, ?_, ?_, List.filter_sublist items, ?_, ?_⟩
  · intro it hin hmid a hchain
    have hp : it.ParentID ≠ [] := AncChain.pid_ne hchain
    rcases (hchar it.ID).mp hmid with ⟨it2, hin2, hid2, hnh2, hct2⟩
    have heq : it2 = it := id_unique hwf hin2 hin hid2
    rw [heq] at hnh2 hct2
    have hrec := hPar it hin hnh2 hct2 hp
    exact chain_in_anc items _ hInv hSub it.ParentID a hchain hrec
  · intro a ha
    rcases fold_anc_sound items (toLowerL query) items ⟨[], [], expanded0⟩ a ha with
      h0 | ⟨it, hmem, hnh, hct, hchain⟩
    · exact absurd h0 (List.not_mem_nil a)
    · exact ⟨it, hmem, (hchar it.ID).mpr ⟨it, hmem, rfl, hnh, hct⟩, hchain⟩
  · intro it
    unfold FilterVisibleItems
    rw [List.mem_filter]
    constructor
    · rintro ⟨hmem, hcond⟩
      rw [Bool.or_eq_true] at hcond
      rcases hcond with h | h
      · exact ⟨hmem, Or.inl ((contains_mem_iff _ _).mp h)⟩
      · exact ⟨hmem, Or.inr ((contains_mem_iff _ _).mp h)⟩
    · rintro ⟨hmem, hcond⟩
      refine ⟨hmem, ?_⟩
      rw [Bool.or_eq_true]
      rcases hcond with h | h
      · exact Or.inl ((contains_mem_iff _ _).mpr h)
      · exact Or.inr ((contains_mem_iff _ _).mpr h)
  · intro hd hhin hhdr
    constructor
    · intro hmem
      rcases (hchar hd.ID).mp hmem with ⟨it2, hin2, hid2, hnh2, hct2⟩
      have heq : it2 = hd := id_unique hwf hin2 hhin hid2
      rw [heq, hhdr] at hnh2
      exact absurd hnh2 (by decide)
    · constructor
      · intro ha
        rcases fold_anc_sound items (toLowerL query) items ⟨[], [], expanded0⟩ hd.ID ha
          with h0 | ⟨c, hcmem, hcnh, hcct, hchain⟩
        · exact absurd h0 (List.not_mem_nil _)
        · exact ⟨c, hcmem, (hchar c.ID).mpr ⟨c, hcmem, rfl, hcnh, hcct⟩, hchain⟩
      · rintro ⟨c, hcmem, hcm, hchain⟩
        rcases (hchar c.ID).mp hcm with ⟨c2, hcmem2, hcid2, hcnh2, hcct2⟩
        have heqc : c2 = c := id_unique hwf hcmem2 hcmem hcid2
        rw [heqc] at hcnh2 hcct2
        have hp : c.ParentID ≠ [] := AncChain.pid_ne hchain
        have hrec := hPar c hcmem hcnh2 hcct2 hp
        exact (chain_in_anc items _ hInv hSub c.ParentID hd.ID hchain hrec).1

/-- Concrete flattened row: a parent goal p under the FUTURE section header. -/
def sampleRowParent : TreeItem where
  ID := "p".toList
  ParentID := headerFuture
  Name := "parent".toList
  Depth := 1
  HasChildren := true
  IsExpanded := false
  IsSectionHeader := false

/-- Concrete flattened row: the goal p/target under p, matching the query "target". -/
def sampleRowChild : TreeItem where
  ID := "p/target".toList
  ParentID := "p".toList
  Name := "target".toList
  Depth := 2
  HasChildren := false
  IsExpanded := false
  IsSectionHeader := false

/-- A concrete well-formed flattened list: FUTURE header, parent, matching child. -/
def sampleItems : List TreeItem :=
  [headerItem headerFuture "FUTURE".toList, sampleRowParent, sampleRowChild]

theorem searchFilter_retention_witness :
    WFItems sampleItems ∧ ("target".toList : List Char) ≠ [] ∧
    "p".toList ∈ (applySearchFilterCore sampleItems [] "target".toList).ancIDs ∧
    "p".toList ∈ (applySearchFilterCore sampleItems [] "target".toList).expanded := by
  refine ⟨by decide, by decide, ?_⟩
  have h := searchFilter_retention sampleItems [] "target".toList (by decide) (by decide)
  have hmem : sampleRowChild ∈ sampleItems := by decide
  have hmid : sampleRowChild.ID ∈
      (applySearchFilterCore sampleItems [] "target".toList).matchIDs := by decide
  have hch : AncChain sampleItems sampleRowChild.ParentID ("p".toList) := by
    have hpe : sampleRowChild.ParentID = "p".toList := rfl
    rw [hpe]
    exact AncChain.here _ (by decide)
  have hres := h.2.1 sampleRowChild hmem hmid ("p".toList) hch
  exact ⟨hres.1, hres.2⟩
